import Mathlib

/-!
Verification of the coin-selection engine (src/wallet/coinselection.cpp) and the
PSBT codec (src/script/sign.h) of this repository, as a shallow embedding.

Conventions of the embedding:
* `CAmount` (a C++ `int64_t`) is modelled as `Int`; the algorithms perform no
  intentional wrap-around arithmetic.
* Byte streams are `List Nat` of byte values; multi-byte integers are read and
  written little-endian exactly as the source's serializer does.
* `std::set<CInputCoin>` (keyed by `operator<`, which compares `outpoint` only)
  is modelled as a list kept sorted by outpoint in which an insert of an
  already-present key is a no-op, matching `std::set::insert`.
* `std::map` fields of the PSBT are modelled as association lists kept sorted
  by key, with `emplace` inserting only when the key is absent, matching
  `std::map::emplace`.
* C++ exceptions become `Except` errors; `assert` failures, `std::vector::at`
  range errors and out-of-range `operator[]` accesses (undefined behaviour)
  make the embedded function return `none` — none of these paths returns
  normally in the source either.
-/

namespace CoinSelection

/-- `CAmount` from the host chain's amount header: a 64-bit signed amount. -/
abbrev CAmount := Int

/-- Modelled from the spec: `MAX_MONEY` is the host chain's money cap
(`amount.h`, which is outside `src/`): 21e6 coins of 1e8 base units. Used only
as the initial `best_waste` in `SelectCoinsBnB`. -/
def MAX_MONEY : CAmount := 21000000 * 100000000

/-- `MIN_CHANGE = COIN / 100` (coinselection.h line 14), i.e. 10^6 base units. -/
def MIN_CHANGE : CAmount := 100000000 / 100

/-- The `txout` of a candidate input; only `nValue` is consulted by the
coin-selection code. -/
structure SelTxOut where
  nValue : CAmount
deriving DecidableEq, Repr

/-- `CInputCoin` as used by coinselection.cpp: an outpoint (compared by value;
modelled as an abstract pair of numbers), the actual `txout`, and the
effective-value/fee annotations. `operator<`, `==` and `!=` compare the
outpoint only. -/
structure CInputCoin where
  outpoint : Nat × Nat
  txout : SelTxOut
  effective_value : CAmount
  fee : CAmount
  long_term_fee : CAmount
deriving DecidableEq, Repr

/-- `COutPoint::operator<`: lexicographic on (hash, index). -/
def outpointLt (a b : Nat × Nat) : Bool :=
  a.1 < b.1 || (a.1 = b.1 && a.2 < b.2)

/-- `std::set<CInputCoin>::insert`: ordered insert keyed by `operator<`
(outpoint); inserting an equivalent key is a no-op. -/
def setInsert (c : CInputCoin) : List CInputCoin → List CInputCoin
  | [] => [c]
  | x :: xs =>
    if outpointLt c.outpoint x.outpoint then c :: x :: xs
    else if outpointLt x.outpoint c.outpoint then x :: setInsert c xs
    else x :: xs

/-- Sum of `effective_value` over a list of coins. -/
def sumEff : List CInputCoin → CAmount
  | [] => 0
  | c :: cs => c.effective_value + sumEff cs

/-- Sum of `txout.nValue` over a list of coins. -/
def sumVal : List CInputCoin → CAmount
  | [] => 0
  | c :: cs => c.txout.nValue + sumVal cs

/-- Sum of `f` over the coins of `pool` whose position is marked `true` in the
parallel selection vector `sel` (positions beyond either list contribute 0). -/
def selSum (f : CInputCoin → CAmount) : List CInputCoin → List Bool → CAmount
  | c :: cs, b :: bs => (if b then f c else 0) + selSum f cs bs
  | _, _ => 0

/-- The sort comparator of coinselection.cpp (`descending`): by
`effective_value`, larger first. -/
def descending (a b : CInputCoin) : Prop :=
  b.effective_value ≤ a.effective_value

instance : DecidableRel descending := fun a b =>
  Int.decLe b.effective_value a.effective_value

/-- `std::sort(utxo_pool.begin(), utxo_pool.end(), descending)`: the source's
unstable sort is modelled by an insertion sort with the same comparator (every
property proved below is independent of which descending order is produced). -/
def sortPool (pool : List CInputCoin) : List CInputCoin :=
  pool.insertionSort descending

/-- State of the depth-first-search loop of `SelectCoinsBnB`. At the head of
each iteration `depth` is non-negative, so it is carried as a `Nat`; the
transient excursion to `-1` inside the backtracking block is folded into
`backWalk`. -/
structure BnBState where
  curr_value : CAmount
  depth : Nat
  curr_selection : List Bool
  curr_available_value : CAmount
  curr_waste : CAmount
  best_selection : List Bool
  best_waste : CAmount
deriving DecidableEq, Repr

/-- Outcome of one iteration of the DFS loop: continue with a new state, break
out of the loop (`depth < 0`, all branches exhausted), or abort (a failed
`assert` or an out-of-range `.at`, neither of which returns in the source). -/
inductive BnBStepRes where
  | next (st : BnBState)
  | exhausted (st : BnBState)
  | aborted
deriving DecidableEq, Repr

/-- The backtracking walk of coinselection.cpp lines 102-109: starting from
`--depth`, walk backwards over unselected positions, restoring each one's
effective value to the available total, until the last included position is
found (`some (index, restored available value)`) or every position has been
walked past (`none`, the `depth < 0` break). -/
def backWalk (pool : List CInputCoin) (sel : List Bool) :
    Nat → CAmount → Option (Nat × CAmount)
  | 0, _ => none
  | d + 1, avail =>
    if sel.getD d false then some (d, avail)
    else backWalk pool sel d (avail + ((pool[d]?.map CInputCoin.effective_value).getD 0))

/-- The backtracking block of coinselection.cpp lines 100-118, applied to a
state (after the walk: deselect the found position, subtract its effective
value from `curr_value` and its fee delta from `curr_waste`, and move forward
past it). -/
def doBacktrack (pool : List CInputCoin) (st : BnBState) : BnBStepRes :=
  match backWalk pool st.curr_selection st.depth st.curr_available_value with
  | none => .exhausted st
  | some (j, avail) =>
    match pool[j]? with
    | none => .aborted
    | some c =>
      .next { st with
        curr_selection := st.curr_selection.set j false
        curr_value := st.curr_value - c.effective_value
        curr_waste := st.curr_waste - (c.fee - c.long_term_fee)
        curr_available_value := avail
        depth := j + 1 }

/-- The forward step of coinselection.cpp lines 119-141: assert a positive
effective value, try the equivalence pruning of the omission branch, otherwise
include the coin at `depth`. -/
def doForward (pool : List CInputCoin) (st : BnBState) : BnBStepRes :=
  match pool[st.depth]? with
  | none => .aborted
  | some c =>
    if c.effective_value ≤ 0 then .aborted
    else
      if decide (0 < st.depth) &&
          !(st.curr_selection.getD (st.depth - 1) false) &&
          (match pool[st.depth - 1]? with
           | some p => decide (c.effective_value = p.effective_value) &&
                       decide (c.fee = p.fee)
           | none => false) then
        .next { st with
          curr_selection := st.curr_selection.set st.depth false
          curr_available_value := st.curr_available_value - c.effective_value
          depth := st.depth + 1 }
      else
        .next { st with
          curr_available_value := st.curr_available_value - c.effective_value
          curr_waste := st.curr_waste + (c.fee - c.long_term_fee)
          curr_selection := st.curr_selection.set st.depth true
          curr_value := st.curr_value + c.effective_value
          depth := st.depth + 1 }

/-- One iteration of the DFS loop (coinselection.cpp lines 79-142): decide
whether to backtrack, possibly record the current selection as the best one,
then backtrack or move forward. The third backtrack condition evaluates
`utxo_pool.at(0)` only when `curr_waste > best_waste`, matching the
short-circuit in the source. -/
def bnbStep (pool : List CInputCoin) (actual_target cost_of_change : CAmount)
    (st : BnBState) : BnBStepRes :=
  if st.curr_value + st.curr_available_value < actual_target then
    doBacktrack pool st
  else if st.curr_value > actual_target + cost_of_change then
    doBacktrack pool st
  else if st.curr_waste > st.best_waste then
    match pool[0]? with
    | none => .aborted
    | some c0 =>
      if 0 < c0.fee - c0.long_term_fee then doBacktrack pool st
      else if actual_target ≤ st.curr_value then
        doBacktrack pool (recordBest actual_target st)
      else doForward pool st
  else if actual_target ≤ st.curr_value then
    doBacktrack pool (recordBest actual_target st)
  else doForward pool st
where
  /-- Lines 86-95: add the excess to `curr_waste`, record the selection if it
  is no more wasteful than the best one, then remove the excess again. -/
  recordBest (actual_target : CAmount) (st : BnBState) : BnBState :=
    if st.curr_waste + (st.curr_value - actual_target) ≤ st.best_waste then
      { st with
        best_selection := st.curr_selection
        best_waste := st.curr_waste + (st.curr_value - actual_target) }
    else st

/-- The DFS loop, driven by the `TOTAL_TRIES` iteration budget. `none` is an
aborted execution; otherwise the state after the loop breaks or the budget is
exhausted. -/
def bnbLoop (pool : List CInputCoin) (actual_target cost_of_change : CAmount) :
    Nat → BnBState → Option BnBState
  | 0, st => some st
  | fuel + 1, st =>
    match bnbStep pool actual_target cost_of_change st with
    | .aborted => none
    | .exhausted st' => some st'
    | .next st' => bnbLoop pool actual_target cost_of_change fuel st'

/-- Lines 149-156: walk the best selection vector in parallel with the sorted
pool, inserting each selected coin into the output set and accumulating its
actual value. `none` models `utxo_pool.at(i)` throwing when `best_selection`
is longer than the pool (never reached from `selectCoinsBnB`). -/
def collectSelected : List CInputCoin → List Bool → List CInputCoin × CAmount →
    Option (List CInputCoin × CAmount)
  | _, [], acc => some acc
  | [], b :: bs, acc => if b then none else collectSelected [] bs acc
  | c :: cs, b :: bs, (oset, vret) =>
    if b then collectSelected cs bs (setInsert c oset, vret + c.txout.nValue)
    else collectSelected cs bs (oset, vret)

/-- Result of a normally-returning run of `SelectCoinsBnB`: the boolean return
value, the contents of `out_set`, and the final value of `value_ret` (the
source leaves the caller's `value_ret` untouched on the `false` paths, so the
caller's incoming value is threaded through as `value_ret0`). -/
structure BnBResult where
  ok : Bool
  out_set : List CInputCoin
  value_ret : CAmount
deriving DecidableEq, Repr

def TOTAL_TRIES : Nat := 100000

/-- `SelectCoinsBnB` (coinselection.cpp lines 52-159). `none` is an execution
that does not return (failed assert / out-of-range access). -/
def selectCoinsBnB (utxo_pool : List CInputCoin)
    (target_value cost_of_change : CAmount) (not_input_fees : CAmount)
    (value_ret0 : CAmount) : Option BnBResult :=
  let actual_target := not_input_fees + target_value
  let curr_available_value := sumEff utxo_pool
  if curr_available_value < actual_target then
    some ⟨false, [], value_ret0⟩
  else
    let pool := sortPool utxo_pool
    let st0 : BnBState :=
      { curr_value := 0
        depth := 0
        curr_selection := List.replicate pool.length false
        curr_available_value := curr_available_value
        curr_waste := 0
        best_selection := []
        best_waste := MAX_MONEY }
    match bnbLoop pool actual_target cost_of_change TOTAL_TRIES st0 with
    | none => none
    | some st =>
      if st.best_selection.isEmpty then some ⟨false, [], value_ret0⟩
      else
        match collectSelected pool st.best_selection ([], 0) with
        | none => none
        | some (oset, vret) => some ⟨true, oset, vret⟩

/-! `KnapsackSolver` (coinselection.cpp lines 161-294). The randomness of
`FastRandomContext::randbool` is modelled by an oracle `Nat → Bool` consumed
one draw at a time (one fresh oracle per `ApproximateBestSubset` call, since
the source constructs a fresh `FastRandomContext` in each call), and
`random_shuffle` is modelled by quantifying over the order of `utxo_pool`:
every permutation of the pool is a possible shuffled order. -/

/-- Outcome of the pre-scan loop of `KnapsackSolver` (lines 219-236): either
an exact-value coin was found and returned immediately, or the loop finished
with the accumulated `vValue`, `nTotalLower` and `coinLowestLarger`. -/
inductive KnapScanOut where
  | exact (c : CInputCoin)
  | resume (vValue : List CInputCoin) (nTotalLower : CAmount)
      (coinLowestLarger : Option CInputCoin)
deriving DecidableEq, Repr

/-- The pre-scan loop of `KnapsackSolver` over the (shuffled) pool. -/
def knapScan (nTargetValue : CAmount) :
    List CInputCoin → List CInputCoin → CAmount → Option CInputCoin → KnapScanOut
  | [], vValue, nTotalLower, cll => .resume vValue nTotalLower cll
  | c :: cs, vValue, nTotalLower, cll =>
    if c.txout.nValue = nTargetValue then .exact c
    else if c.txout.nValue < nTargetValue + MIN_CHANGE then
      knapScan nTargetValue cs (vValue ++ [c]) (nTotalLower + c.txout.nValue) cll
    else if cll.all (fun l => c.txout.nValue < l.txout.nValue) then
      knapScan nTargetValue cs vValue nTotalLower (some c)
    else knapScan nTargetValue cs vValue nTotalLower cll

/-- State of one trial of `ApproximateBestSubset`: the number of random draws
consumed so far, the trial's inclusion vector and running total, the
reached-target flag, and the best total and selection seen so far. -/
structure ABSState where
  ctr : Nat
  vfIncluded : List Bool
  nTotal : CAmount
  fReachedTarget : Bool
  nBest : CAmount
  vfBest : List Bool
deriving DecidableEq, Repr

/-- The inner loop of `ApproximateBestSubset` (lines 178-202) over the coins
of `vValue` starting at position `i`: in pass 0 a coin is included on a random
draw, in pass 1 if it is not yet included; whenever the running total reaches
the target, the best subset is possibly updated and the coin is backed out
again. The loop keeps scanning after the target is first reached, exactly as
the source does. -/
def absInner (rand : Nat → Bool) (nTargetValue : CAmount) (nPass : Nat) :
    List CInputCoin → Nat → ABSState → ABSState
  | [], _, s => s
  | c :: cs, i, s =>
    let cond := if nPass = 0 then rand s.ctr else !(s.vfIncluded.getD i false)
    let ctr' := if nPass = 0 then s.ctr + 1 else s.ctr
    if cond then
      let nTotal := s.nTotal + c.txout.nValue
      let vf := s.vfIncluded.set i true
      if nTargetValue ≤ nTotal then
        let hit := nTotal < s.nBest
        absInner rand nTargetValue nPass cs (i + 1)
          { ctr := ctr'
            vfIncluded := vf.set i false
            nTotal := nTotal - c.txout.nValue
            fReachedTarget := true
            nBest := if hit then nTotal else s.nBest
            vfBest := if hit then vf else s.vfBest }
      else
        absInner rand nTargetValue nPass cs (i + 1)
          { s with ctr := ctr', vfIncluded := vf, nTotal := nTotal }
    else absInner rand nTargetValue nPass cs (i + 1) { s with ctr := ctr' }

/-- One repetition of `ApproximateBestSubset` (lines 172-203): the two-pass
scheme over a fresh inclusion vector; pass 1 runs only when pass 0 did not
reach the target. -/
def absRep (rand : Nat → Bool) (nTargetValue : CAmount) (vValue : List CInputCoin)
    (s : Nat × CAmount × List Bool) : Nat × CAmount × List Bool :=
  let s0 : ABSState :=
    { ctr := s.1
      vfIncluded := List.replicate vValue.length false
      nTotal := 0
      fReachedTarget := false
      nBest := s.2.1
      vfBest := s.2.2 }
  let s1 := absInner rand nTargetValue 0 vValue 0 s0
  let s2 := if s1.fReachedTarget then s1 else absInner rand nTargetValue 1 vValue 0 s1
  (s2.ctr, s2.nBest, s2.vfBest)

/-- The repetition loop of `ApproximateBestSubset` (line 171): up to
`iterations` repetitions, stopping early once `nBest` equals the target. -/
def absLoop (rand : Nat → Bool) (nTargetValue : CAmount) (vValue : List CInputCoin) :
    Nat → Nat × CAmount × List Bool → CAmount × List Bool
  | 0, s => (s.2.1, s.2.2)
  | n + 1, s =>
    if s.2.1 = nTargetValue then (s.2.1, s.2.2)
    else absLoop rand nTargetValue vValue n (absRep rand nTargetValue vValue s)

/-- `ApproximateBestSubset` (lines 161-205): `vfBest` starts as the full
selection with `nBest = nTotalLower`; returns the final `(nBest, vfBest)`. -/
def approximateBestSubset (rand : Nat → Bool) (vValue : List CInputCoin)
    (nTotalLower nTargetValue : CAmount) (iterations : Nat) : CAmount × List Bool :=
  absLoop rand nTargetValue vValue iterations
    (0, nTotalLower, List.replicate vValue.length true)

/-- The `nTotalLower == nTargetValue` branch (lines 238-246): insert every coin
of `vValue` into the output set, accumulating `value_ret`. -/
def insertAll : List CInputCoin → List CInputCoin × CAmount → List CInputCoin × CAmount
  | [], acc => acc
  | c :: cs, (oset, vret) => insertAll cs (setInsert c oset, vret + c.txout.nValue)

/-- Result of a normally-returning run of `KnapsackSolver`: the boolean return
value, the contents of `out_set`, and the final `value_ret`. -/
structure KnapResult where
  ok : Bool
  out_set : List CInputCoin
  value_ret : CAmount
deriving DecidableEq, Repr

/-- `KnapsackSolver` (coinselection.cpp lines 207-294), taking the pool in its
already-shuffled order and one randomness oracle per `ApproximateBestSubset`
call. `none` models an execution that does not return (an out-of-range
`vValue[i]` access in the final loop, never reached in fact). -/
def knapsackSolver (utxo_pool : List CInputCoin) (nTargetValue : CAmount)
    (rand1 rand2 : Nat → Bool) : Option KnapResult :=
  match knapScan nTargetValue utxo_pool [] 0 none with
  | .exact c => some ⟨true, setInsert c [], c.txout.nValue⟩
  | .resume vValue nTotalLower cll =>
    if nTotalLower = nTargetValue then
      let (oset, vret) := insertAll vValue ([], 0)
      some ⟨true, oset, vret⟩
    else if nTotalLower < nTargetValue then
      match cll with
      | none => some ⟨false, [], 0⟩
      | some c => some ⟨true, setInsert c [], c.txout.nValue⟩
    else
      let vSorted := sortPool vValue
      let r1 := approximateBestSubset rand1 vSorted nTotalLower nTargetValue 1000
      let r2 :=
        if r1.1 ≠ nTargetValue ∧ nTargetValue + MIN_CHANGE ≤ nTotalLower then
          approximateBestSubset rand2 vSorted nTotalLower (nTargetValue + MIN_CHANGE) 1000
        else r1
      let useLarger : Bool :=
        match cll with
        | none => false
        | some c =>
          decide ((r2.1 ≠ nTargetValue ∧ r2.1 < nTargetValue + MIN_CHANGE) ∨
            c.txout.nValue ≤ r2.1)
      if useLarger then
        match cll with
        | some c => some ⟨true, setInsert c [], c.txout.nValue⟩
        | none => none
      else
        match collectSelected vSorted r2.2 ([], 0) with
        | none => none
        | some (oset, vret) => some ⟨true, oset, vret⟩

end CoinSelection

namespace PSBT

deriving instance DecidableEq for Except

/-! The PSBT codec of src/script/sign.h: `PartiallySignedTransaction` with its
`Serialize` (lines 128-217) and `Unserialize` (lines 220-451) methods. Byte
streams are `List Nat` of byte values. Transaction primitives and the hash
functions live outside `src/` and are passed in as a black-box collaborator
record, per spec §6.2. -/

/-- Read `n` bytes from the stream, one at a time (`s >> span`). -/
def readBytes : Nat → List Nat → Option (List Nat × List Nat)
  | 0, s => some ([], s)
  | n + 1, s =>
    match s with
    | [] => none
    | b :: s1 => (readBytes n s1).map (fun p => (b :: p.1, p.2))

/-- Value of a little-endian byte list. -/
def leNat : List Nat → Nat
  | [] => 0
  | b :: bs => b + 256 * leNat bs

/-- Little-endian encoding of `n` on `w` bytes. -/
def leBytes : Nat → Nat → List Nat
  | 0, _ => []
  | w + 1, n => (n % 256) :: leBytes w (n / 256)

/-- Read a `w`-byte little-endian unsigned integer, one byte at a time. -/
def readLE : Nat → List Nat → Option (Nat × List Nat)
  | 0, s => some (0, s)
  | w + 1, s =>
    match s with
    | [] => none
    | b :: s1 => (readLE w s1).map (fun p => (b + 256 * p.1, p.2))

/-- The C++ `int` value of a 32-bit little-endian read (two's complement). -/
def toInt32 (n : Nat) : Int :=
  if n < 2147483648 then (n : Int) else (n : Int) - 4294967296

/-- The error taxonomy of the codec (spec §7). Each C++ `throw` site of
`Unserialize` is mapped to one constructor; `outOfRange` stands for the
undefined out-of-range `tx.vin[input.index]` access and `outOfFuel` for the
iteration budget of the embedding (unreachable whenever the collaborator
readers consume input, since every record consumes at least one byte). -/
inductive PSBTError where
  | invalidMagic
  | nonCanonicalCompactSize
  | unexpectedEof
  | badKeyLength
  | hashMismatch
  | utxoMismatch
  | indexPolicyViolation
  | unexpectedInputCount
  | malformedTx
  | outOfRange
  | outOfFuel
deriving DecidableEq, Repr

/-- Modelled from the spec (§6.1): `ReadCompactSize` of the serialization
layer, which is outside `src/`. `n` if `n < 253`; `0xFD‖u16` ; `0xFE‖u32`;
`0xFF‖u64`; the canonical shortest encoding is required on read. -/
def readCompactSize (s : List Nat) : Except PSBTError (Nat × List Nat) :=
  match s with
  | [] => .error .unexpectedEof
  | b :: rest =>
    if b < 253 then .ok (b, rest)
    else if b = 253 then
      match readLE 2 rest with
      | none => .error .unexpectedEof
      | some (n, r) => if n < 253 then .error .nonCanonicalCompactSize else .ok (n, r)
    else if b = 254 then
      match readLE 4 rest with
      | none => .error .unexpectedEof
      | some (n, r) => if n < 65536 then .error .nonCanonicalCompactSize else .ok (n, r)
    else
      match readLE 8 rest with
      | none => .error .unexpectedEof
      | some (n, r) =>
        if n < 4294967296 then .error .nonCanonicalCompactSize else .ok (n, r)

/-- Modelled from the spec (§6.1): `WriteCompactSize` of the serialization
layer, the canonical encoder matching `readCompactSize`. -/
def writeCompactSize (n : Nat) : List Nat :=
  if n < 253 then [n]
  else if n ≤ 65535 then 253 :: leBytes 2 n
  else if n ≤ 4294967295 then 254 :: leBytes 4 n
  else 255 :: leBytes 8 n

/-- Serialization of a `std::vector<unsigned char>`: compact-size length
prefix followed by the bytes (`s << vector`). -/
def serVector (v : List Nat) : List Nat := writeCompactSize v.length ++ v

/-- Lexicographic order on byte strings: the order of `std::map` keys
(`memcmp`-based for the fixed-width hashes, `std::less<vector>` for byte
vectors, and `CPubKey::operator<` for public keys). -/
def lexLt : List Nat → List Nat → Bool
  | [], [] => false
  | [], _ :: _ => true
  | _ :: _, [] => false
  | a :: as, b :: bs => if a < b then true else if b < a then false else lexLt as bs

/-- `std::map::emplace` on an association list kept sorted by key: inserts
only when the key is absent. -/
def mapEmplace (k : List Nat) (v : List Nat) :
    List (List Nat × List Nat) → List (List Nat × List Nat)
  | [] => [(k, v)]
  | (k', v') :: rest =>
    if lexLt k k' then (k, v) :: (k', v') :: rest
    else if lexLt k' k then (k', v') :: mapEmplace k v rest
    else (k', v') :: rest

/-- A transaction input as far as the PSBT codec observes it: the previous
outpoint, the signature script, and the witness stack. -/
structure CTxIn where
  prevout_hash : List Nat
  prevout_n : Nat
  scriptSig : List Nat
  scriptWitness : List (List Nat)
deriving DecidableEq, Repr

/-- A transaction output: amount and script. `CTxOut::SetNull` makes
`nValue = -1`, and `IsNull()` is `nValue == -1`. -/
structure CTxOut where
  nValue : Int
  scriptPubKey : List Nat
deriving DecidableEq, Repr

/-- The null `CTxOut` (default constructed). -/
def CTxOut.null : CTxOut := ⟨-1, []⟩

/-- `CMutableTransaction` as far as the PSBT codec observes it. -/
structure CMutableTransaction where
  nVersion : Int
  vin : List CTxIn
  vout : List CTxOut
  nLockTime : Nat
deriving DecidableEq, Repr

/-- Default-constructed `CMutableTransaction` (version
`CTransaction::CURRENT_VERSION = 2`, empty input/output lists). -/
def CMutableTransaction.null : CMutableTransaction := ⟨2, [], [], 0⟩

/-- Modelled from the spec: `CTransaction::IsNull` of the transaction
primitives (outside `src/`) — a transaction with no inputs and no outputs. -/
def txIsNull (tx : CMutableTransaction) : Bool :=
  tx.vin.isEmpty && tx.vout.isEmpty

/-- `PartiallySignedInput` (sign.h lines 98-111). -/
structure PartiallySignedInput where
  non_witness_utxo : Option CMutableTransaction
  witness_utxo : CTxOut
  partial_sigs : List (List Nat × List Nat)
  unknown : List (List Nat × List Nat)
  sighash_type : Int
  index : Nat
  use_in_index : Bool
deriving DecidableEq, Repr

/-- Modelled from the spec: `PartiallySignedInput::SetNull` is declared in
sign.h but defined outside `src/`; per the data model (§3.2) it resets every
field of the per-input state to its default. -/
def PartiallySignedInput.null : PartiallySignedInput :=
  { non_witness_utxo := none
    witness_utxo := CTxOut.null
    partial_sigs := []
    unknown := []
    sighash_type := 0
    index := 0
    use_in_index := false }

/-- `PartiallySignedTransaction` (sign.h lines 114-459). -/
structure PartiallySignedTransaction where
  tx : CMutableTransaction
  redeem_scripts : List (List Nat × List Nat)
  witness_scripts : List (List Nat × List Nat)
  inputs : List PartiallySignedInput
  unknown : List (List Nat × List Nat)
  hd_keypaths : List (List Nat × List Nat)
  num_ins : Nat
  use_in_index : Bool
deriving DecidableEq, Repr

/-- A default-constructed `PartiallySignedTransaction`. -/
def PartiallySignedTransaction.null : PartiallySignedTransaction :=
  { tx := CMutableTransaction.null
    redeem_scripts := []
    witness_scripts := []
    inputs := []
    unknown := []
    hd_keypaths := []
    num_ins := 0
    use_in_index := false }

/-- Modelled from the spec (§6.2): the black-box collaborators of the codec —
the transaction/output (de)serializers of the consensus encoding, `GetHash`,
and the `HASH160`/`SHA256` hashers, all of which live outside `src/`. Readers
return the decoded value and the remaining stream, or `none` on a malformed
encoding. -/
structure Collab where
  hash160 : List Nat → List Nat
  sha256 : List Nat → List Nat
  readTx : List Nat → Option (CMutableTransaction × List Nat)
  readTxOut : List Nat → Option (CTxOut × List Nat)
  txHash : CMutableTransaction → List Nat
  serTx : CMutableTransaction → List Nat
  serTxOut : CTxOut → List Nat

/-- The mutable state of the `Unserialize` read loop: the
`PartiallySignedTransaction` being filled (`this`), the per-input accumulator
`input`, the separator count, and the in-globals flag. -/
structure ParseState where
  psbt : PartiallySignedTransaction
  input : PartiallySignedInput
  separators : Nat
  in_globals : Bool
deriving DecidableEq, Repr

/-- The state at the top of the read loop: a default-constructed PSBT, a null
`input` with `index = 0`, no separators seen, in the globals section. -/
def initState : ParseState :=
  { psbt := PartiallySignedTransaction.null
    input := PartiallySignedInput.null
    separators := 0
    in_globals := true }

/-- Outcome of one iteration of the read loop: the stream was exhausted and
the accumulated PSBT is returned, or one record (or separator) was consumed. -/
inductive StepOut where
  | done (p : PartiallySignedTransaction)
  | more (s : List Nat) (st : ParseState)

/-- The `switch (type)` of `Unserialize` (sign.h lines 290-449), applied after
the key and the value length have been read. The source's `case
PSBT_NUM_IN_VIN` lacks a `break`, so both of its branches fall through into
the default unknown-record handler; this is reproduced faithfully. -/
def processRecord (c : Collab) (st : ParseState) (key : List Nat)
    (value_len : Nat) (s : List Nat) : Except PSBTError StepOut :=
  let ty := key.headD 0
  if ty = 0 then
    if st.in_globals then
      match c.readTx s with
      | none => .error .malformedTx
      | some (tx, s1) =>
        .ok (.more s1 { st with psbt := { st.psbt with tx := tx } })
    else
      match c.readTx s with
      | none => .error .malformedTx
      | some (prev, s1) =>
        match st.psbt.tx.vin[st.input.index]? with
        | none => .error .outOfRange
        | some txin =>
          if txin.prevout_hash ≠ c.txHash prev then .error .utxoMismatch
          else
            .ok (.more s1
              { st with input := { st.input with non_witness_utxo := some prev } })
  else if ty = 1 then
    if st.in_globals then
      if key.length ≠ 21 then .error .badKeyLength
      else
        match readBytes value_len s with
        | none => .error .unexpectedEof
        | some (scriptBytes, s1) =>
          let hash := key.drop 1
          if c.hash160 scriptBytes ≠ hash then .error .hashMismatch
          else
            .ok (.more s1
              { st with psbt :=
                { st.psbt with
                  redeem_scripts := mapEmplace hash scriptBytes st.psbt.redeem_scripts } })
    else
      match c.readTxOut s with
      | none => .error .malformedTx
      | some (vout, s1) =>
        .ok (.more s1 { st with input := { st.input with witness_utxo := vout } })
  else if ty = 2 then
    if st.in_globals then
      if key.length ≠ 33 then .error .badKeyLength
      else
        match readBytes value_len s with
        | none => .error .unexpectedEof
        | some (scriptBytes, s1) =>
          let hash := key.drop 1
          if c.sha256 scriptBytes ≠ hash then .error .hashMismatch
          else
            .ok (.more s1
              { st with psbt :=
                { st.psbt with
                  witness_scripts := mapEmplace hash scriptBytes st.psbt.witness_scripts } })
    else
      if key.length ≠ 66 ∧ key.length ≠ 34 then .error .badKeyLength
      else
        match readBytes value_len s with
        | none => .error .unexpectedEof
        | some (sig, s1) =>
          .ok (.more s1
            { st with input :=
              { st.input with
                partial_sigs := mapEmplace (key.drop 1) sig st.input.partial_sigs } })
  else if ty = 3 then
    if st.in_globals then
      if key.length ≠ 66 ∧ key.length ≠ 34 then .error .badKeyLength
      else
        match readU32s ((value_len + 3) / 4) s with
        | none => .error .unexpectedEof
        | some (path, s1) =>
          .ok (.more s1
            { st with psbt :=
              { st.psbt with
                hd_keypaths := mapEmplace (key.drop 1) path st.psbt.hd_keypaths } })
    else
      match readLE 4 s with
      | none => .error .unexpectedEof
      | some (n, s1) =>
        .ok (.more s1 { st with input := { st.input with sighash_type := toInt32 n } })
  else if ty = 4 then
    if st.in_globals then
      match readCompactSize s with
      | .error e => .error e
      | .ok (n, s1) =>
        match readBytes value_len s1 with
        | none => .error .unexpectedEof
        | some (val, s2) =>
          .ok (.more s2
            { st with psbt :=
              { st.psbt with
                num_ins := n
                unknown := mapEmplace key val st.psbt.unknown } })
    else
      if !st.psbt.use_in_index && st.separators ≠ 1 then .error .indexPolicyViolation
      else
        match readLE 8 s with
        | none => .error .unexpectedEof
        | some (idx, s1) =>
          match readBytes value_len s1 with
          | none => .error .unexpectedEof
          | some (val, s2) =>
            .ok (.more s2
              { st with
                psbt := { st.psbt with use_in_index := true }
                input := { st.input with
                  index := idx
                  use_in_index := true
                  unknown := mapEmplace key val st.input.unknown } })
  else
    match readBytes value_len s with
    | none => .error .unexpectedEof
    | some (val, s1) =>
      if st.in_globals then
        .ok (.more s1
          { st with psbt := { st.psbt with unknown := mapEmplace key val st.psbt.unknown } })
      else
        .ok (.more s1
          { st with input := { st.input with unknown := mapEmplace key val st.input.unknown } })
where
  /-- The keypath value loop (lines 405-409): `for (i = 0; i < value_len;
  i += 4)` reads one `uint32_t` per step, i.e. `⌈value_len/4⌉` reads; each
  value is stored little-endian. -/
  readU32s : Nat → List Nat → Option (List Nat × List Nat)
    | 0, s => some ([], s)
    | n + 1, s =>
      match readLE 4 s with
      | none => none
      | some (v, s1) => (readU32s n s1).map (fun p => (v :: p.1, p.2))

/-- One iteration of the `while (!s.empty())` loop of `Unserialize` (lines
240-450): stream exhausted means the PSBT is returned; a zero key length is
the separator (lines 250-275) with its index-policy check, input push and
end-of-stream input-count check; otherwise the key and value length are read
and the record is processed. -/
def parseStep (c : Collab) (s : List Nat) (st : ParseState) : Except PSBTError StepOut :=
  match s with
  | [] => .ok (.done st.psbt)
  | _ :: _ =>
    match readCompactSize s with
    | .error e => .error e
    | .ok (key_len, s1) =>
      if key_len = 0 then
        if 0 < st.separators then
          if !st.psbt.use_in_index && !st.input.use_in_index then
            .error .indexPolicyViolation
          else
            let psbt1 := { st.psbt with inputs := st.psbt.inputs ++ [st.input] }
            let input1 := { PartiallySignedInput.null with index := st.separators - 1 }
            let seps := st.separators + 1
            if s1.isEmpty && decide (seps - 1 = psbt1.num_ins) then
              .error .unexpectedInputCount
            else
              .ok (.more s1
                { psbt := psbt1, input := input1, separators := seps, in_globals := false })
        else
          let seps := st.separators + 1
          if s1.isEmpty && decide (seps - 1 = st.psbt.num_ins) then
            .error .unexpectedInputCount
          else
            .ok (.more s1 { st with separators := seps, in_globals := false })
      else
        match readBytes key_len s1 with
        | none => .error .unexpectedEof
        | some (key, s2) =>
          match readCompactSize s2 with
          | .error e => .error e
          | .ok (value_len, s3) => processRecord c st key value_len s3

/-- The read loop, driven by an iteration budget (`unserializePSBT` passes one
more than the stream length, which is enough because every iteration consumes
at least one byte when the collaborator readers consume input). -/
def parseLoop (c : Collab) : Nat → List Nat → ParseState →
    Except PSBTError PartiallySignedTransaction
  | 0, s, st => if s.isEmpty then .ok st.psbt else .error .outOfFuel
  | fuel + 1, s, st =>
    match parseStep c s st with
    | .error e => .error e
    | .ok (.done p) => .ok p
    | .ok (.more s1 st1) => parseLoop c fuel s1 st1

/-- `PartiallySignedTransaction::Unserialize` (sign.h lines 220-451): read the
4-byte magic (failing with `InvalidMagic` on mismatch), read — without
checking — the head byte, then run the record loop on a default-constructed
state. -/
def unserializePSBT (c : Collab) (s : List Nat) :
    Except PSBTError PartiallySignedTransaction :=
  match readLE 4 s with
  | none => .error .unexpectedEof
  | some (magic, s1) =>
    if magic ≠ 1952609136 then .error .invalidMagic
    else
      match s1 with
      | [] => .error .unexpectedEof
      | _ :: s2 => parseLoop c (s2.length + 1) s2 initState

/-- Per-entry serialization of the redeem-script map (tag 1), the
witness-script map (tag 2) and the per-input partial-signature map (tag 2):
key `[tag ‖ keyBytes]` as a vector, value as a vector. -/
def serMap (tag : Nat) : List (List Nat × List Nat) → List Nat
  | [] => []
  | (k, v) :: rest => serVector (tag :: k) ++ serVector v ++ serMap tag rest

/-- The `uint32_t` derivation indices of one keypath, each little-endian. -/
def serKeypathValues : List Nat → List Nat
  | [] => []
  | n :: ns => leBytes 4 n ++ serKeypathValues ns

/-- Serialization of the `hd_keypaths` map (sign.h lines 153-159). -/
def serKeypaths : List (List Nat × List Nat) → List Nat
  | [] => []
  | (pk, path) :: rest =>
    serVector (3 :: pk) ++ writeCompactSize (4 * path.length) ++
      serKeypathValues path ++ serKeypaths rest

/-- Serialization of an unknown-record map: key vector, value vector. -/
def serUnknown : List (List Nat × List Nat) → List Nat
  | [] => []
  | (k, v) :: rest => serVector k ++ serVector v ++ serUnknown rest

/-- Serialization of one per-input section (sign.h lines 176-216): the UTXO,
partial signatures, sighash type and positional index are emitted only when
the input's signature script and witness are both empty; unknown records and
the separator always follow. -/
def serializeInput (c : Collab) (use_in_index : Bool) (txin : CTxIn)
    (pin : PartiallySignedInput) : List Nat :=
  (if txin.scriptSig.isEmpty && txin.scriptWitness.isEmpty then
    (match pin.non_witness_utxo with
     | some ptx => serVector [0] ++ serVector (c.serTx ptx)
     | none =>
       if pin.witness_utxo.nValue ≠ -1 then
         serVector [1] ++ serVector (c.serTxOut pin.witness_utxo)
       else []) ++
    serMap 2 pin.partial_sigs ++
    (if 0 < pin.sighash_type then
      serVector [3] ++ serVector (leBytes 4 (Int.toNat (pin.sighash_type.emod 4294967296)))
     else []) ++
    (if use_in_index then serVector [4] ++ serVector (writeCompactSize pin.index) else [])
   else []) ++
  serUnknown pin.unknown ++ [0]

/-- The per-input loop of `Serialize` (lines 176-216): one section per
transaction input; the `inputs[i]` access is undefined behaviour (`none`) when
`inputs` is shorter than `tx.vin`. -/
def serializeInputs (c : Collab) (use_in_index : Bool) :
    List CTxIn → List PartiallySignedInput → Option (List Nat)
  | [], _ => some []
  | _ :: _, [] => none
  | txin :: vins, pin :: pins =>
    (serializeInputs c use_in_index vins pins).map
      (fun rest => serializeInput c use_in_index txin pin ++ rest)

/-- `PartiallySignedTransaction::Serialize` (sign.h lines 128-217). -/
def serializePSBT (c : Collab) (p : PartiallySignedTransaction) : Option (List Nat) :=
  (serializeInputs c p.use_in_index p.tx.vin p.inputs).map (fun ins =>
    [112, 115, 98, 116, 255] ++
    (if txIsNull p.tx then [] else serVector [0] ++ serVector (c.serTx p.tx)) ++
    serMap 1 p.redeem_scripts ++
    serMap 2 p.witness_scripts ++
    serKeypaths p.hd_keypaths ++
    (if 0 < p.num_ins then serVector [4] ++ serVector (writeCompactSize p.num_ins) else []) ++
    serUnknown p.unknown ++ [0] ++ ins)

/-- A concrete executable collaborator used to evaluate the codec on explicit
byte streams: toy (but deterministic and stateless) hashers of the right
output widths and trivial transaction primitives. -/
def collab0 : Collab :=
  { hash160 := fun b => List.replicate 20 ((b.foldl (fun a x => a + x) 7) % 256)
    sha256 := fun b => List.replicate 32 ((b.foldl (fun a x => a + x) 3) % 256)
    readTx := fun _ => none
    readTxOut := fun _ => none
    txHash := fun _ => []
    serTx := fun _ => []
    serTxOut := fun _ => [] }

end PSBT

namespace CoinSelection

/-- The loop invariant of the branch-and-bound search: the selection vector is
as long as the pool, every position at or beyond `depth` is unselected,
`curr_value` is the effective-value sum of the current selection, and the best
selection (once non-empty) is as long as the pool with an effective-value sum
inside the target window. -/
def BnBInv (pool : List CInputCoin) (target coc : CAmount) (st : BnBState) : Prop :=
  st.curr_selection.length = pool.length ∧
  (∀ i, st.depth ≤ i → st.curr_selection.getD i false = false) ∧
  st.curr_value = selSum CInputCoin.effective_value pool st.curr_selection ∧
  (st.best_selection = [] ∨
    (st.best_selection.length = pool.length ∧
     target ≤ selSum CInputCoin.effective_value pool st.best_selection ∧
     selSum CInputCoin.effective_value pool st.best_selection ≤ target + coc))

/-- The invariant lifted to the outcome of one loop iteration (aborted runs
carry no obligation). -/
def BnBStepInv (pool : List CInputCoin) (target coc : CAmount) : BnBStepRes → Prop
  | .next st => BnBInv pool target coc st
  | .exhausted st => BnBInv pool target coc st
  | .aborted => True

/-- The invariant of `ApproximateBestSubset`: the trial vector is as long as
`vValue` with `nTotal` its selected-value sum, and the best vector is as long
as `vValue` with `nBest` its selected-value sum, at or above the target. -/
def ABSInv (vValue : List CInputCoin) (nTargetValue : CAmount) (s : ABSState) : Prop :=
  s.vfIncluded.length = vValue.length ∧
  s.nTotal = selSum (fun c => c.txout.nValue) vValue s.vfIncluded ∧
  s.vfBest.length = vValue.length ∧
  s.nBest = selSum (fun c => c.txout.nValue) vValue s.vfBest ∧
  nTargetValue ≤ s.nBest

end CoinSelection

namespace PSBT

/-- The hash-binding invariant of a parsed PSBT: every redeem-script entry is
keyed by the HASH160 of its script and every witness-script entry by the
SHA256 of its script. -/
def HashBound (c : Collab) (p : PartiallySignedTransaction) : Prop :=
  (∀ e ∈ p.redeem_scripts, c.hash160 e.2 = e.1) ∧
  (∀ e ∈ p.witness_scripts, c.sha256 e.2 = e.1)

/-- The hash-binding invariant of a parse state. -/
def HashBoundSt (c : Collab) (st : ParseState) : Prop :=
  HashBound c st.psbt

/-- The hash-binding invariant of a read-loop iteration outcome. -/
def StepHB (c : Collab) : StepOut → Prop
  | .done p => HashBound c p
  | .more _ st => HashBoundSt c st

end PSBT

/-! Helper lemmas for the coin-selection proofs. -/

namespace CoinSelection

theorem outpoint_eq_of_not_lt {a b : Nat × Nat}
    (h1 : outpointLt a b = false) (h2 : outpointLt b a = false) : a = b := by
  simp only [outpointLt, Bool.or_eq_false_iff, Bool.and_eq_false_iff,
    decide_eq_false_iff_not, not_lt] at h1 h2
  have hab : a.1 = b.1 := le_antisymm h2.1 h1.1
  rcases h1.2 with h | h
  · exact absurd hab (by simpa using h)
  · rcases h2.2 with h' | h'
    · exact absurd hab.symm (by simpa using h')
    · exact Prod.ext hab (le_antisymm (by simpa using h') (by simpa using h))

theorem setInsert_mem {c a : CInputCoin} :
    ∀ {s : List CInputCoin}, a ∈ setInsert c s → a = c ∨ a ∈ s := by
  intro s
  induction s with
  | nil => intro h; simp [setInsert] at h; exact Or.inl h
  | cons x xs ih =>
    intro h
    by_cases h1 : outpointLt c.outpoint x.outpoint = true
    · rw [setInsert, if_pos h1] at h
      exact List.mem_cons.mp h
    · by_cases h2 : outpointLt x.outpoint c.outpoint = true
      · rw [setInsert, if_neg h1, if_pos h2] at h
        rcases List.mem_cons.mp h with h | h
        · exact Or.inr (List.mem_cons.mpr (Or.inl h))
        · rcases ih h with h' | h'
          · exact Or.inl h'
          · exact Or.inr (List.mem_cons.mpr (Or.inr h'))
      · rw [setInsert, if_neg h1, if_neg h2] at h
        exact Or.inr h

theorem sumEff_setInsert {c : CInputCoin} :
    ∀ {s : List CInputCoin}, c.outpoint ∉ s.map CInputCoin.outpoint →
    sumEff (setInsert c s) = c.effective_value + sumEff s := by
  intro s
  induction s with
  | nil => intro _; rfl
  | cons x xs ih =>
    intro h
    simp only [List.map_cons, List.mem_cons, not_or] at h
    simp only [setInsert]
    split
    · rfl
    · split
      · simp only [sumEff, ih h.2]; ring
      · rename_i h1 h2
        exact absurd (congrArg CInputCoin.outpoint
          (rfl : c = c) ▸ outpoint_eq_of_not_lt
            (Bool.not_eq_true _ ▸ by simpa using h1)
            (Bool.not_eq_true _ ▸ by simpa using h2)) h.1

theorem sumVal_setInsert {c : CInputCoin} :
    ∀ {s : List CInputCoin}, c.outpoint ∉ s.map CInputCoin.outpoint →
    sumVal (setInsert c s) = c.txout.nValue + sumVal s := by
  intro s
  induction s with
  | nil => intro _; rfl
  | cons x xs ih =>
    intro h
    simp only [List.map_cons, List.mem_cons, not_or] at h
    simp only [setInsert]
    split
    · rfl
    · split
      · simp only [sumVal, ih h.2]; ring
      · rename_i h1 h2
        exact absurd (outpoint_eq_of_not_lt
            (by simpa using h1) (by simpa using h2)) h.1

theorem selSum_nil_right (f : CInputCoin → CAmount) (pool : List CInputCoin) :
    selSum f pool [] = 0 := by
  cases pool <;> rfl

theorem selSum_cons (f : CInputCoin → CAmount) (c : CInputCoin)
    (cs : List CInputCoin) (b : Bool) (bs : List Bool) :
    selSum f (c :: cs) (b :: bs) = (if b then f c else 0) + selSum f cs bs := rfl

theorem selSum_replicate_false (f : CInputCoin → CAmount) :
    ∀ (pool : List CInputCoin) (n : Nat),
    selSum f pool (List.replicate n false) = 0 := by
  intro pool
  induction pool with
  | nil => intro n; cases n <;> rfl
  | cons c cs ih =>
    intro n
    cases n with
    | zero => rfl
    | succ n => simp [List.replicate, selSum, ih n]

theorem getD_replicate_false (n i : Nat) :
    (List.replicate n false).getD i false = false := by
  induction n generalizing i with
  | zero => rfl
  | succ n ih =>
    cases i with
    | zero => rfl
    | succ i => simp only [List.replicate, List.getD_cons_succ]; exact ih i

theorem getD_set_ne (l : List Bool) (b : Bool) :
    ∀ (i j : Nat), i ≠ j → (l.set i b).getD j false = l.getD j false := by
  induction l with
  | nil => intro i j _; simp
  | cons x xs ih =>
    intro i j hij
    cases i with
    | zero =>
      cases j with
      | zero => exact absurd rfl hij
      | succ j => rfl
    | succ i =>
      cases j with
      | zero => rfl
      | succ j => simpa using ih i j (by omega)

theorem getD_set_self (l : List Bool) (b : Bool) :
    ∀ (i : Nat), i < l.length → (l.set i b).getD i false = b := by
  induction l with
  | nil => intro i h; simp at h
  | cons x xs ih =>
    intro i h
    cases i with
    | zero => rfl
    | succ i => simpa using ih i (by simpa using h)

theorem selSum_set_true (f : CInputCoin → CAmount) :
    ∀ (pool : List CInputCoin) (sel : List Bool) (i : Nat) (c : CInputCoin),
    pool[i]? = some c → i < sel.length → sel.getD i false = false →
    selSum f pool (sel.set i true) = selSum f pool sel + f c := by
  intro pool
  induction pool with
  | nil => intro sel i c hc; simp at hc
  | cons x xs ih =>
    intro sel i c hc hi hf
    cases sel with
    | nil => simp at hi
    | cons b bs =>
      cases i with
      | zero =>
        simp only [List.getElem?_cons_zero, Option.some_inj] at hc
        subst hc
        simp only [List.getD_cons_zero] at hf
        subst hf
        simp [List.set, selSum]
        ring
      | succ i =>
        simp only [List.getElem?_cons_succ] at hc
        simp only [List.length_cons, Nat.add_lt_add_iff_right] at hi
        simp only [List.getD_cons_succ] at hf
        simp only [List.set, selSum, ih bs i c hc hi hf]
        ring

theorem selSum_set_false (f : CInputCoin → CAmount) :
    ∀ (pool : List CInputCoin) (sel : List Bool) (i : Nat) (c : CInputCoin),
    pool[i]? = some c → sel.getD i false = true →
    selSum f pool (sel.set i false) = selSum f pool sel - f c := by
  intro pool
  induction pool with
  | nil => intro sel i c hc; simp at hc
  | cons x xs ih =>
    intro sel i c hc ht
    cases sel with
    | nil => simp [List.getD] at ht
    | cons b bs =>
      cases i with
      | zero =>
        simp only [List.getElem?_cons_zero, Option.some_inj] at hc
        subst hc
        simp only [List.getD_cons_zero] at ht
        subst ht
        simp [List.set, selSum]
      | succ i =>
        simp only [List.getElem?_cons_succ] at hc
        simp only [List.getD_cons_succ] at ht
        simp only [List.set, selSum, ih bs i c hc ht]
        ring

theorem selSum_set_false_of_false (f : CInputCoin → CAmount) :
    ∀ (pool : List CInputCoin) (sel : List Bool) (i : Nat),
    sel.getD i false = false →
    selSum f pool (sel.set i false) = selSum f pool sel := by
  intro pool
  induction pool with
  | nil => intro sel i _; cases sel <;> rfl
  | cons x xs ih =>
    intro sel i hf
    cases sel with
    | nil => rfl
    | cons b bs =>
      cases i with
      | zero =>
        simp only [List.getD_cons_zero] at hf
        subst hf
        rfl
      | succ i =>
        simp only [List.getD_cons_succ] at hf
        simp [List.set, selSum, ih bs i hf]

theorem backWalk_spec (pool : List CInputCoin) (sel : List Bool) :
    ∀ (d : Nat) (avail : CAmount) (j : Nat) (avail' : CAmount),
    backWalk pool sel d avail = some (j, avail') →
    j < d ∧ sel.getD j false = true ∧
      ∀ i, j < i → i < d → sel.getD i false = false := by
  intro d
  induction d with
  | zero => intro avail j avail' h; simp [backWalk] at h
  | succ d ih =>
    intro avail j avail' h
    simp only [backWalk] at h
    split at h
    · rename_i hsel
      simp only [Option.some_inj, Prod.mk.injEq] at h
      refine ⟨by omega, h.1 ▸ hsel, ?_⟩
      intro i h1 h2
      omega
    · rename_i hsel
      obtain ⟨h1, h2, h3⟩ := ih _ j avail' h
      refine ⟨by omega, h2, ?_⟩
      intro i hji hid
      rcases Nat.lt_or_ge i d with hi | hi
      · exact h3 i hji hi
      · have : i = d := by omega
        subst this
        simpa using hsel

end CoinSelection

namespace CoinSelection

theorem lt_length_of_getElem? {α : Type} {l : List α} {i : Nat} {a : α}
    (h : l[i]? = some a) : i < l.length := by
  by_contra hc
  rw [List.getElem?_eq_none (by omega)] at h
  exact Option.noConfusion h

theorem doBacktrack_inv {pool : List CInputCoin} {target coc : CAmount}
    {st : BnBState} (h : BnBInv pool target coc st) :
    BnBStepInv pool target coc (doBacktrack pool st) := by
  obtain ⟨hlen, htail, hval, hbest⟩ := h
  unfold doBacktrack
  split
  · exact ⟨hlen, htail, hval, hbest⟩
  · rename_i j avail hw
    split
    · trivial
    · rename_i c hp
      obtain ⟨hjd, hjt, hmid⟩ :=
        backWalk_spec pool st.curr_selection st.depth st.curr_available_value j avail hw
      refine ⟨by simpa using hlen, ?_, ?_, hbest⟩
      · show ∀ i, j + 1 ≤ i → (st.curr_selection.set j false).getD i false = false
        intro i hi
        rw [getD_set_ne _ _ j i (by omega)]
        rcases Nat.lt_or_ge i st.depth with h1 | h1
        · exact hmid i (by omega) h1
        · exact htail i h1
      · show st.curr_value - c.effective_value =
          selSum CInputCoin.effective_value pool (st.curr_selection.set j false)
        rw [selSum_set_false CInputCoin.effective_value pool st.curr_selection j c hp hjt,
          hval]

theorem doForward_inv {pool : List CInputCoin} {target coc : CAmount}
    {st : BnBState} (h : BnBInv pool target coc st) :
    BnBStepInv pool target coc (doForward pool st) := by
  obtain ⟨hlen, htail, hval, hbest⟩ := h
  unfold doForward
  split
  · trivial
  · rename_i c hp
    split
    · trivial
    · rename_i hneg
      have hdsel : st.depth < st.curr_selection.length := by
        have := lt_length_of_getElem? hp
        omega
      split
      · refine ⟨by simpa using hlen, ?_, ?_, hbest⟩
        · show ∀ i, st.depth + 1 ≤ i →
            (st.curr_selection.set st.depth false).getD i false = false
          intro i hi
          rw [getD_set_ne _ _ _ _ (by omega : st.depth ≠ i)]
          exact htail i (by omega)
        · show st.curr_value =
            selSum CInputCoin.effective_value pool (st.curr_selection.set st.depth false)
          rw [selSum_set_false_of_false CInputCoin.effective_value pool
            st.curr_selection st.depth (htail st.depth le_rfl)]
          exact hval
      · refine ⟨by simpa using hlen, ?_, ?_, hbest⟩
        · show ∀ i, st.depth + 1 ≤ i →
            (st.curr_selection.set st.depth true).getD i false = false
          intro i hi
          rw [getD_set_ne _ _ _ _ (by omega : st.depth ≠ i)]
          exact htail i (by omega)
        · show st.curr_value + c.effective_value =
            selSum CInputCoin.effective_value pool (st.curr_selection.set st.depth true)
          rw [selSum_set_true CInputCoin.effective_value pool st.curr_selection
            st.depth c hp hdsel (htail st.depth le_rfl), hval]

theorem recordBest_inv {pool : List CInputCoin} {target coc : CAmount}
    {st : BnBState} (h : BnBInv pool target coc st)
    (h1 : target ≤ st.curr_value) (h2 : st.curr_value ≤ target + coc) :
    BnBInv pool target coc (bnbStep.recordBest target st) := by
  obtain ⟨hlen, htail, hval, hbest⟩ := h
  unfold bnbStep.recordBest
  split
  · exact ⟨hlen, htail, hval,
      Or.inr ⟨hlen, by rw [← hval]; exact h1, by rw [← hval]; exact h2⟩⟩
  · exact ⟨hlen, htail, hval, hbest⟩

theorem bnbStep_inv {pool : List CInputCoin} {target coc : CAmount}
    {st : BnBState} (h : BnBInv pool target coc st) :
    BnBStepInv pool target coc (bnbStep pool target coc st) := by
  unfold bnbStep
  split
  · exact doBacktrack_inv h
  · rename_i hc1
    split
    · exact doBacktrack_inv h
    · rename_i hc2
      split
      · split
        · trivial
        · rename_i c0 hp0
          split
          · exact doBacktrack_inv h
          · split
            · rename_i hle
              exact doBacktrack_inv (recordBest_inv h hle (not_lt.mp hc2))
            · exact doForward_inv h
      · split
        · rename_i hle
          exact doBacktrack_inv (recordBest_inv h hle (not_lt.mp hc2))
        · exact doForward_inv h

theorem bnbLoop_inv {pool : List CInputCoin} {target coc : CAmount} :
    ∀ (fuel : Nat) (st st' : BnBState), BnBInv pool target coc st →
    bnbLoop pool target coc fuel st = some st' → BnBInv pool target coc st' := by
  intro fuel
  induction fuel with
  | zero =>
    intro st st' h heq
    simp only [bnbLoop, Option.some_inj] at heq
    exact heq ▸ h
  | succ fuel ih =>
    intro st st' h heq
    simp only [bnbLoop] at heq
    cases hs : bnbStep pool target coc st with
    | aborted =>
      rw [hs] at heq
      exact Option.noConfusion heq
    | exhausted st1 =>
      rw [hs] at heq
      have hinv := bnbStep_inv h
      rw [hs] at hinv
      simp only [Option.some_inj] at heq
      exact heq ▸ hinv
    | next st1 =>
      rw [hs] at heq
      have hinv := bnbStep_inv h
      rw [hs] at hinv
      exact ih st1 st' hinv heq

theorem collectSelected_spec :
    ∀ (best : List Bool) (pool : List CInputCoin) (oset : List CInputCoin)
      (vret : CAmount),
    best.length ≤ pool.length →
    (pool.map CInputCoin.outpoint).Nodup →
    (∀ a ∈ oset, a.outpoint ∉ pool.map CInputCoin.outpoint) →
    ∃ o v, collectSelected pool best (oset, vret) = some (o, v) ∧
      v = vret + selSum (fun x => x.txout.nValue) pool best ∧
      sumEff o = sumEff oset + selSum CInputCoin.effective_value pool best ∧
      sumVal o = sumVal oset + selSum (fun x => x.txout.nValue) pool best := by
  intro best
  induction best with
  | nil =>
    intro pool oset vret _ _ _
    refine ⟨oset, vret, ?_, ?_, ?_, ?_⟩
    · cases pool <;> rfl
    · rw [selSum_nil_right]; ring
    · rw [selSum_nil_right]; ring
    · rw [selSum_nil_right]; ring
  | cons b bs ih =>
    intro pool oset vret hlen hnd hdisj
    cases pool with
    | nil => simp at hlen
    | cons c cs =>
      simp only [List.length_cons, Nat.add_le_add_iff_right] at hlen
      simp only [List.map_cons, List.nodup_cons] at hnd
      cases b with
      | false =>
        obtain ⟨o, v, heq, hv, he, hval⟩ := ih cs oset vret hlen hnd.2
          (by
            intro a ha
            have := hdisj a ha
            simp only [List.map_cons, List.mem_cons, not_or] at this
            exact this.2)
        refine ⟨o, v, heq, ?_, ?_, ?_⟩
        · rw [hv, selSum_cons]
          simp
        · rw [he, selSum_cons]
          simp
        · rw [hval, selSum_cons]
          simp
      | true =>
        have hco : c.outpoint ∉ oset.map CInputCoin.outpoint := by
          intro hc
          obtain ⟨a, ha, hae⟩ := List.mem_map.mp hc
          have := hdisj a ha
          simp only [List.map_cons, List.mem_cons, not_or] at this
          exact this.1 hae
        obtain ⟨o, v, heq, hv, he, hval⟩ :=
          ih cs (setInsert c oset) (vret + c.txout.nValue) hlen hnd.2
          (by
            intro a ha
            rcases setInsert_mem ha with h' | h'
            · exact h' ▸ hnd.1
            · have := hdisj a h'
              simp only [List.map_cons, List.mem_cons, not_or] at this
              exact this.2)
        refine ⟨o, v, heq, ?_, ?_, ?_⟩
        · rw [hv, selSum_cons]
          simp
          ring
        · rw [he, sumEff_setInsert hco, selSum_cons]
          simp
          ring
        · rw [hval, sumVal_setInsert hco, selSum_cons]
          simp
          ring

theorem sortPool_nodup_outpoints {pool : List CInputCoin}
    (h : (pool.map CInputCoin.outpoint).Nodup) :
    ((sortPool pool).map CInputCoin.outpoint).Nodup := by
  have hp : ((sortPool pool).map CInputCoin.outpoint).Perm
      (pool.map CInputCoin.outpoint) :=
    (List.perm_insertionSort descending pool).map CInputCoin.outpoint
  exact hp.nodup_iff.mpr h

end CoinSelection

namespace CoinSelection

/-- C2: Whenever `SelectCoinsBnB` returns success, the sum of
`effective_value` over the coins placed in `out_set` lies in the closed
interval `[actual_target, actual_target + cost_of_change]`, where
`actual_target = target_value + not_input_fees`. Stated for pools with
pairwise distinct outpoints, the data-model invariant of a UTXO set (the
source's `out_set` is a `std::set` keyed by outpoint). -/
theorem claim_C2_bnb_range
    (utxo_pool : List CInputCoin)
    (target_value cost_of_change not_input_fees value_ret0 : CAmount)
    (res : BnBResult)
    (hnd : (utxo_pool.map CInputCoin.outpoint).Nodup)
    (h : selectCoinsBnB utxo_pool target_value cost_of_change not_input_fees
      value_ret0 = some res)
    (hok : res.ok = true) :
    not_input_fees + target_value ≤ sumEff res.out_set ∧
    sumEff res.out_set ≤ not_input_fees + target_value + cost_of_change := by
  simp only [selectCoinsBnB] at h
  split at h
  · simp only [Option.some_inj] at h
    rw [← h] at hok
    simp at hok
  · split at h
    · exact Option.noConfusion h
    · rename_i st hloop
      split at h
      · simp only [Option.some_inj] at h
        rw [← h] at hok
        simp at hok
      · rename_i hne
        split at h
        · exact Option.noConfusion h
        · rename_i oset vret hcol
          simp only [Option.some_inj] at h
          have hInv0 : BnBInv (sortPool utxo_pool)
              (not_input_fees + target_value) cost_of_change
              { curr_value := 0, depth := 0,
                curr_selection := List.replicate (sortPool utxo_pool).length false,
                curr_available_value := sumEff utxo_pool, curr_waste := 0,
                best_selection := [], best_waste := MAX_MONEY } := by
            refine ⟨by simp, ?_, ?_, Or.inl rfl⟩
            · intro i _
              exact getD_replicate_false _ i
            · exact (selSum_replicate_false _ _ _).symm
          have hInv := bnbLoop_inv TOTAL_TRIES _ st hInv0 hloop
          obtain ⟨_, _, _, hbest⟩ := hInv
          rcases hbest with hb | ⟨hblen, hb1, hb2⟩
          · rw [hb] at hne
            simp at hne
          · obtain ⟨o, v, heqc, hv, he, hsv⟩ :=
              collectSelected_spec st.best_selection (sortPool utxo_pool) [] 0
                (le_of_eq hblen) (sortPool_nodup_outpoints hnd)
                (by intro a ha; cases ha)
            rw [heqc] at hcol
            simp only [Option.some_inj, Prod.mk.injEq] at hcol
            rw [← h]
            constructor
            · show not_input_fees + target_value ≤ sumEff oset
              rw [← hcol.1, he]
              simp only [sumEff, zero_add]
              exact hb1
            · show sumEff oset ≤ not_input_fees + target_value + cost_of_change
              rw [← hcol.1, he]
              simp only [sumEff, zero_add]
              exact hb2

theorem claim_C2_witness :
    (([⟨(1, 0), ⟨3⟩, 3, 0, 0⟩] : List CInputCoin).map CInputCoin.outpoint).Nodup ∧
    selectCoinsBnB [⟨(1, 0), ⟨3⟩, 3, 0, 0⟩] 3 0 0 0 =
      some ⟨true, [⟨(1, 0), ⟨3⟩, 3, 0, 0⟩], 3⟩ ∧
    (0 + 3 ≤ sumEff [⟨(1, 0), ⟨3⟩, 3, 0, 0⟩] ∧
      sumEff [⟨(1, 0), ⟨3⟩, 3, 0, 0⟩] ≤ 0 + 3 + 0) :=
  ⟨by decide, by decide,
    claim_C2_bnb_range [⟨(1, 0), ⟨3⟩, 3, 0, 0⟩] 3 0 0 0
      ⟨true, [⟨(1, 0), ⟨3⟩, 3, 0, 0⟩], 3⟩ (by decide) (by decide) rfl⟩

/-- C9: Whenever `SelectCoinsBnB` returns success, `value_ret` equals the sum
over the returned `out_set` of each coin's actual value `txout.nValue` (not
the sum of effective values). Stated for pools with pairwise distinct
outpoints, the data-model invariant of a UTXO set. -/
theorem claim_C9_bnb_value_ret
    (utxo_pool : List CInputCoin)
    (target_value cost_of_change not_input_fees value_ret0 : CAmount)
    (res : BnBResult)
    (hnd : (utxo_pool.map CInputCoin.outpoint).Nodup)
    (h : selectCoinsBnB utxo_pool target_value cost_of_change not_input_fees
      value_ret0 = some res)
    (hok : res.ok = true) :
    res.value_ret = sumVal res.out_set := by
  simp only [selectCoinsBnB] at h
  split at h
  · simp only [Option.some_inj] at h
    rw [← h] at hok
    simp at hok
  · split at h
    · exact Option.noConfusion h
    · rename_i st hloop
      split at h
      · simp only [Option.some_inj] at h
        rw [← h] at hok
        simp at hok
      · rename_i hne
        split at h
        · exact Option.noConfusion h
        · rename_i oset vret hcol
          simp only [Option.some_inj] at h
          have hInv0 : BnBInv (sortPool utxo_pool)
              (not_input_fees + target_value) cost_of_change
              { curr_value := 0, depth := 0,
                curr_selection := List.replicate (sortPool utxo_pool).length false,
                curr_available_value := sumEff utxo_pool, curr_waste := 0,
                best_selection := [], best_waste := MAX_MONEY } := by
            refine ⟨by simp, ?_, ?_, Or.inl rfl⟩
            · intro i _
              exact getD_replicate_false _ i
            · exact (selSum_replicate_false _ _ _).symm
          have hInv := bnbLoop_inv TOTAL_TRIES _ st hInv0 hloop
          obtain ⟨_, _, _, hbest⟩ := hInv
          rcases hbest with hb | ⟨hblen, _, _⟩
          · rw [hb] at hne
            simp at hne
          · obtain ⟨o, v, heqc, hv, he, hsv⟩ :=
              collectSelected_spec st.best_selection (sortPool utxo_pool) [] 0
                (le_of_eq hblen) (sortPool_nodup_outpoints hnd)
                (by intro a ha; cases ha)
            rw [heqc] at hcol
            simp only [Option.some_inj, Prod.mk.injEq] at hcol
            rw [← h]
            show vret = sumVal oset
            rw [← hcol.1, ← hcol.2, hsv, hv]
            simp [sumVal]

theorem claim_C9_witness :
    (([⟨(2, 0), ⟨5⟩, 2, 1, 1⟩] : List CInputCoin).map CInputCoin.outpoint).Nodup ∧
    selectCoinsBnB [⟨(2, 0), ⟨5⟩, 2, 1, 1⟩] 2 0 0 0 =
      some ⟨true, [⟨(2, 0), ⟨5⟩, 2, 1, 1⟩], 5⟩ ∧
    (5 : CAmount) = sumVal [⟨(2, 0), ⟨5⟩, 2, 1, 1⟩] :=
  ⟨by decide, by decide,
    claim_C9_bnb_value_ret [⟨(2, 0), ⟨5⟩, 2, 1, 1⟩] 2 0 0 0
      ⟨true, [⟨(2, 0), ⟨5⟩, 2, 1, 1⟩], 5⟩ (by decide) (by decide) rfl⟩

end CoinSelection

namespace CoinSelection

/-- C10: Whenever `SelectCoinsBnB` or `KnapsackSolver` returns failure
(`false`), `out_set` is empty on return: both functions clear it on entry and
insert into it only on paths that return success. -/
theorem claim_C10_failure_out_set_empty :
    (∀ (utxo_pool : List CInputCoin)
       (target_value cost_of_change not_input_fees value_ret0 : CAmount)
       (res : BnBResult),
       selectCoinsBnB utxo_pool target_value cost_of_change not_input_fees
         value_ret0 = some res →
       res.ok = false → res.out_set = []) ∧
    (∀ (utxo_pool : List CInputCoin) (nTargetValue : CAmount)
       (rand1 rand2 : Nat → Bool) (res : KnapResult),
       knapsackSolver utxo_pool nTargetValue rand1 rand2 = some res →
       res.ok = false → res.out_set = []) := by
  constructor
  · intro pool t coc nif vr0 res h hok
    simp only [selectCoinsBnB] at h
    split at h
    · simp only [Option.some_inj] at h
      rw [← h]
    · split at h
      · exact Option.noConfusion h
      · split at h
        · simp only [Option.some_inj] at h
          rw [← h]
        · split at h
          · exact Option.noConfusion h
          · simp only [Option.some_inj] at h
            rw [← h] at hok
            simp at hok
  · intro pool t r1 r2 res h hok
    simp only [knapsackSolver] at h
    split at h
    · simp only [Option.some_inj] at h
      rw [← h] at hok
      simp at hok
    · split at h
      · simp only [Option.some_inj] at h
        rw [← h] at hok
        simp at hok
      · split at h
        · split at h
          · simp only [Option.some_inj] at h
            rw [← h]
          · simp only [Option.some_inj] at h
            rw [← h] at hok
            simp at hok
        · split at h <;>
          · split at h
            · split at h
              · simp only [Option.some_inj] at h
                rw [← h] at hok
                simp at hok
              · exact Option.noConfusion h
            · split at h
              · exact Option.noConfusion h
              · simp only [Option.some_inj] at h
                rw [← h] at hok
                simp at hok

theorem claim_C10_witness :
    selectCoinsBnB [] 5 0 0 0 = some ⟨false, [], 0⟩ ∧
    knapsackSolver [] 5 (fun _ => true) (fun _ => true) = some ⟨false, [], 0⟩ ∧
    (⟨false, [], 0⟩ : BnBResult).out_set = [] ∧
    (⟨false, [], 0⟩ : KnapResult).out_set = [] :=
  ⟨by decide, by rfl,
    claim_C10_failure_out_set_empty.1 [] 5 0 0 0 ⟨false, [], 0⟩ (by decide) rfl,
    claim_C10_failure_out_set_empty.2 [] 5 (fun _ => true) (fun _ => true)
      ⟨false, [], 0⟩ (by rfl) rfl⟩

theorem knapScan_exact (nTargetValue : CAmount) :
    ∀ (l vValue : List CInputCoin) (nTotalLower : CAmount)
      (cll : Option CInputCoin) (c : CInputCoin),
    knapScan nTargetValue l vValue nTotalLower cll = .exact c →
    c.txout.nValue = nTargetValue ∧ c ∈ l := by
  intro l
  induction l with
  | nil =>
    intro vValue nTotalLower cll c h
    exact KnapScanOut.noConfusion h
  | cons x xs ih =>
    intro vValue nTotalLower cll c h
    simp only [knapScan] at h
    split at h
    · rename_i hx
      simp only [KnapScanOut.exact.injEq] at h
      exact ⟨h ▸ hx, h ▸ List.mem_cons_self x xs⟩
    · split at h
      · obtain ⟨h1, h2⟩ := ih _ _ _ c h
        exact ⟨h1, List.mem_cons.mpr (Or.inr h2)⟩
      · split at h
        · obtain ⟨h1, h2⟩ := ih _ _ _ c h
          exact ⟨h1, List.mem_cons.mpr (Or.inr h2)⟩
        · obtain ⟨h1, h2⟩ := ih _ _ _ c h
          exact ⟨h1, List.mem_cons.mpr (Or.inr h2)⟩

theorem knapScan_finds_exact (nTargetValue : CAmount) :
    ∀ (l vValue : List CInputCoin) (nTotalLower : CAmount)
      (cll : Option CInputCoin),
    (∃ c ∈ l, c.txout.nValue = nTargetValue) →
    ∃ c, knapScan nTargetValue l vValue nTotalLower cll = .exact c := by
  intro l
  induction l with
  | nil =>
    intro vValue nTotalLower cll h
    obtain ⟨c, hc, _⟩ := h
    cases hc
  | cons x xs ih =>
    intro vValue nTotalLower cll h
    by_cases hx : x.txout.nValue = nTargetValue
    · exact ⟨x, by simp only [knapScan]; rw [if_pos hx]⟩
    · have hxs : ∃ c ∈ xs, c.txout.nValue = nTargetValue := by
        obtain ⟨c, hc, hce⟩ := h
        rcases List.mem_cons.mp hc with rfl | hc'
        · exact absurd hce hx
        · exact ⟨c, hc', hce⟩
      simp only [knapScan]
      rw [if_neg hx]
      split
      · exact ih _ _ _ hxs
      · split
        · exact ih _ _ _ hxs
        · exact ih _ _ _ hxs

/-- C8: For every non-empty pool containing at least one coin whose
`txout.nValue` equals `nTargetValue`, `KnapsackSolver` succeeds and returns a
singleton `out_set` holding one such coin, with `value_ret` equal to
`nTargetValue` (the pool is taken in its post-shuffle order; the statement
quantifies over all orders). -/
theorem claim_C8_knapsack_exact_single
    (utxo_pool : List CInputCoin) (nTargetValue : CAmount)
    (rand1 rand2 : Nat → Bool)
    (h : ∃ c ∈ utxo_pool, c.txout.nValue = nTargetValue) :
    ∃ c ∈ utxo_pool, c.txout.nValue = nTargetValue ∧
      knapsackSolver utxo_pool nTargetValue rand1 rand2 =
        some ⟨true, [c], nTargetValue⟩ := by
  obtain ⟨c, heq⟩ := knapScan_finds_exact nTargetValue utxo_pool [] 0 none h
  obtain ⟨hval, hmem⟩ := knapScan_exact nTargetValue utxo_pool [] 0 none c heq
  refine ⟨c, hmem, hval, ?_⟩
  have hrun : knapsackSolver utxo_pool nTargetValue rand1 rand2 =
      some ⟨true, setInsert c [], c.txout.nValue⟩ := by
    simp only [knapsackSolver, heq]
  rw [hrun, hval]
  rfl

theorem claim_C8_witness :
    (∃ c ∈ ([⟨(3, 1), ⟨9⟩, 9, 0, 0⟩] : List CInputCoin),
      c.txout.nValue = 9) ∧
    (∃ c ∈ ([⟨(3, 1), ⟨9⟩, 9, 0, 0⟩] : List CInputCoin),
      c.txout.nValue = 9 ∧
      knapsackSolver [⟨(3, 1), ⟨9⟩, 9, 0, 0⟩] 9 (fun _ => false) (fun _ => false) =
        some ⟨true, [c], 9⟩) :=
  ⟨⟨⟨(3, 1), ⟨9⟩, 9, 0, 0⟩, by decide, by decide⟩,
    claim_C8_knapsack_exact_single [⟨(3, 1), ⟨9⟩, 9, 0, 0⟩] 9
      (fun _ => false) (fun _ => false)
      ⟨⟨(3, 1), ⟨9⟩, 9, 0, 0⟩, by decide, by decide⟩⟩

end CoinSelection


namespace CoinSelection

theorem sumVal_append : ∀ (a b : List CInputCoin),
    sumVal (a ++ b) = sumVal a + sumVal b := by
  intro a b
  induction a with
  | nil => simp [sumVal]
  | cons c cs ih =>
    show c.txout.nValue + sumVal (cs ++ b) = c.txout.nValue + sumVal cs + sumVal b
    rw [ih]
    ring

theorem sumVal_eq_map_sum : ∀ (l : List CInputCoin),
    sumVal l = (l.map (fun c => c.txout.nValue)).sum := by
  intro l
  induction l with
  | nil => rfl
  | cons c cs ih => simp only [sumVal, List.map_cons, List.sum_cons, ih]

theorem sumVal_sortPool (l : List CInputCoin) : sumVal (sortPool l) = sumVal l := by
  rw [sumVal_eq_map_sum, sumVal_eq_map_sum]
  exact ((List.perm_insertionSort descending l).map (fun c => c.txout.nValue)).sum_eq

theorem selSum_replicate_true : ∀ (l : List CInputCoin),
    selSum (fun c => c.txout.nValue) l (List.replicate l.length true) = sumVal l := by
  intro l
  induction l with
  | nil => rfl
  | cons c cs ih =>
    show (if true then c.txout.nValue else 0) +
      selSum (fun c => c.txout.nValue) cs (List.replicate cs.length true) = sumVal (c :: cs)
    rw [if_pos rfl, ih]
    rfl

theorem knapScan_resume (nTargetValue : CAmount) :
    ∀ (l vV : List CInputCoin) (tL : CAmount) (cll : Option CInputCoin)
      (vV' : List CInputCoin) (tL' : CAmount) (cll' : Option CInputCoin),
    knapScan nTargetValue l vV tL cll = .resume vV' tL' cll' →
    tL = sumVal vV →
    (∀ c0, cll = some c0 → nTargetValue + MIN_CHANGE ≤ c0.txout.nValue) →
    tL' = sumVal vV' ∧
    (∀ c0, cll' = some c0 → nTargetValue + MIN_CHANGE ≤ c0.txout.nValue) ∧
    vV'.Sublist (vV ++ l) := by
  intro l
  induction l with
  | nil =>
    intro vV tL cll vV' tL' cll' h hsum hcll
    simp only [knapScan, KnapScanOut.resume.injEq] at h
    obtain ⟨h1, h2, h3⟩ := h
    subst h1
    subst h2
    subst h3
    exact ⟨hsum, hcll, by simp⟩
  | cons x xs ih =>
    intro vV tL cll vV' tL' cll' h hsum hcll
    simp only [knapScan] at h
    split at h
    · exact KnapScanOut.noConfusion h
    · split at h
      · rename_i hlt
        obtain ⟨h1, h2, h3⟩ := ih (vV ++ [x]) (tL + x.txout.nValue) cll vV' tL' cll' h
          (by rw [sumVal_append, hsum]; simp [sumVal])
          hcll
        refine ⟨h1, h2, ?_⟩
        have : vV ++ [x] ++ xs = vV ++ x :: xs := by simp
        exact this ▸ h3
      · split at h
        · rename_i hne hge _
          obtain ⟨h1, h2, h3⟩ := ih vV tL (some x) vV' tL' cll' h hsum
            (by
              intro c0 hc0
              simp only [Option.some_inj] at hc0
              subst hc0
              exact not_lt.mp hge)
          exact ⟨h1, h2, h3.trans (List.Sublist.append_left (List.sublist_cons_self x xs) vV)⟩
        · obtain ⟨h1, h2, h3⟩ := ih vV tL cll vV' tL' cll' h hsum hcll
          exact ⟨h1, h2, h3.trans (List.Sublist.append_left (List.sublist_cons_self x xs) vV)⟩

theorem insertAll_spec :
    ∀ (l oset : List CInputCoin) (vret : CAmount),
    (l.map CInputCoin.outpoint).Nodup →
    (∀ a ∈ oset, a.outpoint ∉ l.map CInputCoin.outpoint) →
    sumVal (insertAll l (oset, vret)).1 = sumVal oset + sumVal l ∧
    (insertAll l (oset, vret)).2 = vret + sumVal l := by
  intro l
  induction l with
  | nil =>
    intro oset vret _ _
    constructor
    · show sumVal oset = sumVal oset + sumVal []
      simp [sumVal]
    · show vret = vret + sumVal []
      simp [sumVal]
  | cons c cs ih =>
    intro oset vret hnd hdisj
    simp only [List.map_cons, List.nodup_cons] at hnd
    have hco : c.outpoint ∉ oset.map CInputCoin.outpoint := by
      intro hc
      obtain ⟨a, ha, hae⟩ := List.mem_map.mp hc
      have := hdisj a ha
      simp only [List.map_cons, List.mem_cons, not_or] at this
      exact this.1 hae
    obtain ⟨ih1, ih2⟩ := ih (setInsert c oset) (vret + c.txout.nValue) hnd.2
      (by
        intro a ha
        rcases setInsert_mem ha with h' | h'
        · exact h' ▸ hnd.1
        · have := hdisj a h'
          simp only [List.map_cons, List.mem_cons, not_or] at this
          exact this.2)
    constructor
    · show sumVal (insertAll cs (setInsert c oset, vret + c.txout.nValue)).1 =
        sumVal oset + sumVal (c :: cs)
      rw [ih1, sumVal_setInsert hco]
      show c.txout.nValue + sumVal oset + sumVal cs =
        sumVal oset + (c.txout.nValue + sumVal cs)
      ring
    · show (insertAll cs (setInsert c oset, vret + c.txout.nValue)).2 =
        vret + sumVal (c :: cs)
      rw [ih2]
      show vret + c.txout.nValue + sumVal cs = vret + (c.txout.nValue + sumVal cs)
      ring

theorem drop_cons_getElem? {α : Type} {l : List α} {i : Nat} {c : α} {cs : List α}
    (h : l.drop i = c :: cs) : l[i]? = some c ∧ l.drop (i + 1) = cs := by
  constructor
  · have h0 : (l.drop i)[0]? = some c := by rw [h]; exact List.getElem?_cons_zero
    rw [List.getElem?_drop] at h0
    simpa using h0
  · have h1 : l.drop (i + 1) = (l.drop i).drop 1 := by
      rw [List.drop_drop]
    rw [h1, h]
    rfl

end CoinSelection

namespace CoinSelection

theorem absInner_inv (rand : Nat → Bool) (T : CAmount) (vFull : List CInputCoin)
    (nPass : Nat) :
    ∀ (cs : List CInputCoin) (i : Nat) (s : ABSState),
    vFull.drop i = cs →
    ABSInv vFull T s →
    (nPass = 0 → ∀ k, i ≤ k → s.vfIncluded.getD k false = false) →
    ABSInv vFull T (absInner rand T nPass cs i s) := by
  intro cs
  induction cs with
  | nil =>
    intro i s _ hinv _
    exact hinv
  | cons c cs ih =>
    intro i s hdrop hinv htf
    obtain ⟨hci, hdrop'⟩ := drop_cons_getElem? hdrop
    obtain ⟨hlen, htot, hblen, hbsum, hbge⟩ := hinv
    have hiLen : i < vFull.length := lt_length_of_getElem? hci
    have hiSel : i < s.vfIncluded.length := by omega
    simp only [absInner]
    by_cases hcond : (if nPass = 0 then rand s.ctr else !(s.vfIncluded.getD i false)) = true
    · rw [if_pos hcond]
      have hifalse : s.vfIncluded.getD i false = false := by
        by_cases hnp : nPass = 0
        · exact htf hnp i le_rfl
        · rw [if_neg hnp] at hcond
          simpa using hcond
      have hsetT : (s.vfIncluded.set i true).getD i false = true :=
        getD_set_self s.vfIncluded true i hiSel
      by_cases hreach : T ≤ s.nTotal + c.txout.nValue
      · rw [if_pos hreach]
        apply ih (i + 1) _ hdrop' ?_ ?_
        · by_cases hhit : s.nTotal + c.txout.nValue < s.nBest
          · rw [if_pos hhit, if_pos hhit]
            refine ⟨?_, ?_, ?_, ?_, ?_⟩
            · show ((s.vfIncluded.set i true).set i false).length = vFull.length
              simp [hlen]
            · show s.nTotal + c.txout.nValue - c.txout.nValue =
                selSum (fun c => c.txout.nValue) vFull ((s.vfIncluded.set i true).set i false)
              rw [selSum_set_false (fun c => c.txout.nValue) vFull
                  (s.vfIncluded.set i true) i c hci hsetT,
                selSum_set_true (fun c => c.txout.nValue) vFull s.vfIncluded i c
                  hci hiSel hifalse, ← htot]
            · show (s.vfIncluded.set i true).length = vFull.length
              simp [hlen]
            · show s.nTotal + c.txout.nValue =
                selSum (fun c => c.txout.nValue) vFull (s.vfIncluded.set i true)
              rw [selSum_set_true (fun c => c.txout.nValue) vFull s.vfIncluded i c
                  hci hiSel hifalse, ← htot]
            · exact hreach
          · rw [if_neg hhit, if_neg hhit]
            refine ⟨?_, ?_, hblen, hbsum, hbge⟩
            · show ((s.vfIncluded.set i true).set i false).length = vFull.length
              simp [hlen]
            · show s.nTotal + c.txout.nValue - c.txout.nValue =
                selSum (fun c => c.txout.nValue) vFull ((s.vfIncluded.set i true).set i false)
              rw [selSum_set_false (fun c => c.txout.nValue) vFull
                  (s.vfIncluded.set i true) i c hci hsetT,
                selSum_set_true (fun c => c.txout.nValue) vFull s.vfIncluded i c
                  hci hiSel hifalse, ← htot]
        · intro hnp k hk
          show ((s.vfIncluded.set i true).set i false).getD k false = false
          rw [getD_set_ne _ _ i k (by omega), getD_set_ne _ _ i k (by omega)]
          exact htf hnp k (by omega)
      · rw [if_neg hreach]
        apply ih (i + 1) _ hdrop' ?_ ?_
        · refine ⟨?_, ?_, hblen, hbsum, hbge⟩
          · show (s.vfIncluded.set i true).length = vFull.length
            simp [hlen]
          · show s.nTotal + c.txout.nValue =
              selSum (fun c => c.txout.nValue) vFull (s.vfIncluded.set i true)
            rw [selSum_set_true (fun c => c.txout.nValue) vFull s.vfIncluded i c
                hci hiSel hifalse, ← htot]
        · intro hnp k hk
          show (s.vfIncluded.set i true).getD k false = false
          rw [getD_set_ne _ _ i k (by omega)]
          exact htf hnp k (by omega)
    · rw [if_neg hcond]
      apply ih (i + 1) _ hdrop' ?_ ?_
      · exact ⟨hlen, htot, hblen, hbsum, hbge⟩
      · intro hnp k hk
        exact htf hnp k (by omega)

theorem absRep_inv (rand : Nat → Bool) (T : CAmount) (vV : List CInputCoin)
    (ctr : Nat) (nB : CAmount) (vfB : List Bool)
    (hlen : vfB.length = vV.length)
    (hsum : nB = selSum (fun c => c.txout.nValue) vV vfB)
    (hge : T ≤ nB) :
    (absRep rand T vV (ctr, nB, vfB)).2.2.length = vV.length ∧
    (absRep rand T vV (ctr, nB, vfB)).2.1 =
      selSum (fun c => c.txout.nValue) vV (absRep rand T vV (ctr, nB, vfB)).2.2 ∧
    T ≤ (absRep rand T vV (ctr, nB, vfB)).2.1 := by
  have h0 : ABSInv vV T
      { ctr := ctr, vfIncluded := List.replicate vV.length false, nTotal := 0,
        fReachedTarget := false, nBest := nB, vfBest := vfB } := by
    refine ⟨by simp, (selSum_replicate_false _ _ _).symm, hlen, hsum, hge⟩
  have h1 := absInner_inv rand T vV 0 vV 0 _ (by simp) h0
    (by intro _ k _; exact getD_replicate_false _ k)
  simp only [absRep]
  split
  · exact ⟨h1.2.2.1, h1.2.2.2.1, h1.2.2.2.2⟩
  · have h2 := absInner_inv rand T vV 1 vV 0 _ (by simp) h1
      (by intro hnp; exact absurd hnp (by omega))
    exact ⟨h2.2.2.1, h2.2.2.2.1, h2.2.2.2.2⟩

theorem absLoop_inv (rand : Nat → Bool) (T : CAmount) (vV : List CInputCoin) :
    ∀ (n : Nat) (s : Nat × CAmount × List Bool),
    s.2.2.length = vV.length →
    s.2.1 = selSum (fun c => c.txout.nValue) vV s.2.2 →
    T ≤ s.2.1 →
    (absLoop rand T vV n s).2.length = vV.length ∧
    (absLoop rand T vV n s).1 =
      selSum (fun c => c.txout.nValue) vV (absLoop rand T vV n s).2 ∧
    T ≤ (absLoop rand T vV n s).1 := by
  intro n
  induction n with
  | zero =>
    intro s h1 h2 h3
    exact ⟨h1, h2, h3⟩
  | succ n ih =>
    intro s h1 h2 h3
    simp only [absLoop]
    split
    · exact ⟨h1, h2, h3⟩
    · obtain ⟨s1, s2, s3⟩ := s
      exact ih (absRep rand T vV (s1, s2, s3)) (absRep_inv rand T vV s1 s2 s3 h1 h2 h3).1
        (absRep_inv rand T vV s1 s2 s3 h1 h2 h3).2.1
        (absRep_inv rand T vV s1 s2 s3 h1 h2 h3).2.2

theorem approximateBestSubset_spec (rand : Nat → Bool) (vV : List CInputCoin)
    (nTotalLower T : CAmount) (iterations : Nat)
    (hge : T ≤ nTotalLower) (hsum : nTotalLower = sumVal vV) :
    (approximateBestSubset rand vV nTotalLower T iterations).2.length = vV.length ∧
    (approximateBestSubset rand vV nTotalLower T iterations).1 =
      selSum (fun c => c.txout.nValue) vV
        (approximateBestSubset rand vV nTotalLower T iterations).2 ∧
    T ≤ (approximateBestSubset rand vV nTotalLower T iterations).1 := by
  refine absLoop_inv rand T vV iterations
    (0, nTotalLower, List.replicate vV.length true) (by simp) ?_ hge
  show nTotalLower = selSum (fun c => c.txout.nValue) vV (List.replicate vV.length true)
  rw [selSum_replicate_true, ← hsum]

end CoinSelection

namespace CoinSelection

/-- C4: Whenever `KnapsackSolver` returns success, `value_ret` — which equals
the sum of `txout.nValue` over the returned `out_set` — is greater than or
equal to `nTargetValue`. Stated for pools with pairwise distinct outpoints,
the data-model invariant of a UTXO set; the pool is taken in its post-shuffle
order and the randomness oracles are arbitrary. -/
theorem claim_C4_knapsack_sufficiency
    (utxo_pool : List CInputCoin) (nTargetValue : CAmount)
    (rand1 rand2 : Nat → Bool) (res : KnapResult)
    (hnd : (utxo_pool.map CInputCoin.outpoint).Nodup)
    (h : knapsackSolver utxo_pool nTargetValue rand1 rand2 = some res)
    (hok : res.ok = true) :
    res.value_ret = sumVal res.out_set ∧ nTargetValue ≤ res.value_ret := by
  have hmc : (0 : CAmount) < MIN_CHANGE := by decide
  simp only [knapsackSolver] at h
  split at h
  · rename_i c heq
    obtain ⟨hval, _⟩ := knapScan_exact nTargetValue utxo_pool [] 0 none c heq
    simp only [Option.some_inj] at h
    rw [← h]
    constructor
    · show c.txout.nValue = sumVal (setInsert c [])
      show c.txout.nValue = c.txout.nValue + 0
      ring
    · show nTargetValue ≤ c.txout.nValue
      exact le_of_eq hval.symm
  · rename_i vV tL cll heq
    obtain ⟨htL, hcll, hsub⟩ := knapScan_resume nTargetValue utxo_pool [] 0 none
      vV tL cll heq rfl (by intro c0 hc0; cases hc0)
    have hsubp : vV.Sublist utxo_pool := by simpa using hsub
    have hndv : (vV.map CInputCoin.outpoint).Nodup :=
      List.Nodup.sublist (hsubp.map CInputCoin.outpoint) hnd
    split at h
    · rename_i htEq
      obtain ⟨hsum1, hsum2⟩ := insertAll_spec vV [] 0 hndv (by intro a ha; cases ha)
      simp only [Option.some_inj] at h
      rw [← h]
      constructor
      · show (insertAll vV ([], 0)).2 = sumVal (insertAll vV ([], 0)).1
        rw [hsum1, hsum2]
        show 0 + sumVal vV = sumVal [] + sumVal vV
        rfl
      · show nTargetValue ≤ (insertAll vV ([], 0)).2
        rw [hsum2, ← htL, htEq]
        simp
    · rename_i htNe
      split at h
      · split at h
        · simp only [Option.some_inj] at h
          rw [← h] at hok
          simp at hok
        · rename_i c
          have hcv := hcll c rfl
          simp only [Option.some_inj] at h
          rw [← h]
          constructor
          · show c.txout.nValue = sumVal (setInsert c [])
            show c.txout.nValue = c.txout.nValue + 0
            ring
          · show nTargetValue ≤ c.txout.nValue
            linarith
      · rename_i hnlt
        have hTle : nTargetValue ≤ tL := not_lt.mp hnlt
        have hsortSum : tL = sumVal (sortPool vV) := by
          rw [sumVal_sortPool]
          exact htL
        have habs1 := approximateBestSubset_spec rand1 (sortPool vV) tL nTargetValue
          1000 hTle hsortSum
        split at h
        · rename_i hcond2
          have habs2 := approximateBestSubset_spec rand2 (sortPool vV) tL
            (nTargetValue + MIN_CHANGE) 1000 hcond2.2 hsortSum
          split at h
          · split at h
            · rename_i c hUL
              have hcv := hcll c rfl
              simp only [Option.some_inj] at h
              rw [← h]
              constructor
              · show c.txout.nValue = sumVal (setInsert c [])
                show c.txout.nValue = c.txout.nValue + 0
                ring
              · show nTargetValue ≤ c.txout.nValue
                linarith
            · exact Option.noConfusion h
          · obtain ⟨o, v, heqc, hv, he, hsv⟩ := collectSelected_spec
              (approximateBestSubset rand2 (sortPool vV) tL (nTargetValue + MIN_CHANGE) 1000).2
              (sortPool vV) [] 0 (le_of_eq habs2.1) (sortPool_nodup_outpoints hndv)
              (by intro a ha; cases ha)
            rw [heqc] at h
            simp only [Option.some_inj] at h
            rw [← h]
            constructor
            · show v = sumVal o
              rw [hv, hsv]
              show 0 + _ = sumVal [] + _
              rfl
            · show nTargetValue ≤ v
              rw [hv, ← habs2.2.1]
              have hb := habs2.2.2
              show nTargetValue ≤ 0 + _
              linarith
        · split at h
          · split at h
            · rename_i c hUL
              have hcv := hcll c rfl
              simp only [Option.some_inj] at h
              rw [← h]
              constructor
              · show c.txout.nValue = sumVal (setInsert c [])
                show c.txout.nValue = c.txout.nValue + 0
                ring
              · show nTargetValue ≤ c.txout.nValue
                linarith
            · exact Option.noConfusion h
          · obtain ⟨o, v, heqc, hv, he, hsv⟩ := collectSelected_spec
              (approximateBestSubset rand1 (sortPool vV) tL nTargetValue 1000).2
              (sortPool vV) [] 0 (le_of_eq habs1.1) (sortPool_nodup_outpoints hndv)
              (by intro a ha; cases ha)
            rw [heqc] at h
            simp only [Option.some_inj] at h
            rw [← h]
            constructor
            · show v = sumVal o
              rw [hv, hsv]
              show 0 + _ = sumVal [] + _
              rfl
            · show nTargetValue ≤ v
              rw [hv, ← habs1.2.1]
              have hb := habs1.2.2
              show nTargetValue ≤ 0 + _
              linarith

theorem claim_C4_witness :
    (([⟨(4, 2), ⟨7⟩, 7, 0, 0⟩] : List CInputCoin).map CInputCoin.outpoint).Nodup ∧
    knapsackSolver [⟨(4, 2), ⟨7⟩, 7, 0, 0⟩] 7 (fun _ => true) (fun _ => true) =
      some ⟨true, [⟨(4, 2), ⟨7⟩, 7, 0, 0⟩], 7⟩ ∧
    ((7 : CAmount) = sumVal [⟨(4, 2), ⟨7⟩, 7, 0, 0⟩] ∧
      (7 : CAmount) ≤ 7) :=
  ⟨by decide, by decide,
    claim_C4_knapsack_sufficiency [⟨(4, 2), ⟨7⟩, 7, 0, 0⟩] 7
      (fun _ => true) (fun _ => true) ⟨true, [⟨(4, 2), ⟨7⟩, 7, 0, 0⟩], 7⟩
      (by decide) (by decide) rfl⟩

end CoinSelection

namespace PSBT

theorem mapEmplace_mem {k v : List Nat} {x : List Nat × List Nat} :
    ∀ {m : List (List Nat × List Nat)}, x ∈ mapEmplace k v m → x = (k, v) ∨ x ∈ m := by
  intro m
  induction m with
  | nil =>
    intro h
    simp only [mapEmplace, List.mem_singleton] at h
    exact Or.inl h
  | cons y ys ih =>
    intro h
    by_cases h1 : lexLt k y.1 = true
    · rw [mapEmplace, if_pos h1] at h
      exact List.mem_cons.mp h
    · by_cases h2 : lexLt y.1 k = true
      · rw [mapEmplace, if_neg h1, if_pos h2] at h
        rcases List.mem_cons.mp h with h' | h'
        · exact Or.inr (List.mem_cons.mpr (Or.inl h'))
        · rcases ih h' with h'' | h''
          · exact Or.inl h''
          · exact Or.inr (List.mem_cons.mpr (Or.inr h''))
      · rw [mapEmplace, if_neg h1, if_neg h2] at h
        exact Or.inr h

theorem processRecord_inv {c : Collab} {st : ParseState} {key : List Nat}
    {value_len : Nat} {s : List Nat} {out : StepOut}
    (hinv : HashBoundSt c st)
    (h : processRecord c st key value_len s = .ok out) :
    StepHB c out := by
  obtain ⟨hr, hw⟩ := hinv
  simp only [processRecord] at h
  repeat' split at h
  · exact Except.noConfusion h
  · simp only [Except.ok.injEq] at h
    subst h
    exact ⟨hr, hw⟩
  · exact Except.noConfusion h
  · exact Except.noConfusion h
  · exact Except.noConfusion h
  · simp only [Except.ok.injEq] at h
    subst h
    exact ⟨hr, hw⟩
  · exact Except.noConfusion h
  · exact Except.noConfusion h
  · exact Except.noConfusion h
  · rename_i hguard
    simp only [Except.ok.injEq] at h
    subst h
    refine ⟨?_, hw⟩
    intro e he
    rcases mapEmplace_mem he with rfl | hem
    · exact not_ne_iff.mp hguard
    · exact hr e hem
  · exact Except.noConfusion h
  · simp only [Except.ok.injEq] at h
    subst h
    exact ⟨hr, hw⟩
  · exact Except.noConfusion h
  · exact Except.noConfusion h
  · exact Except.noConfusion h
  · rename_i hguard
    simp only [Except.ok.injEq] at h
    subst h
    refine ⟨hr, ?_⟩
    intro e he
    rcases mapEmplace_mem he with rfl | hem
    · exact not_ne_iff.mp hguard
    · exact hw e hem
  · exact Except.noConfusion h
  · exact Except.noConfusion h
  · simp only [Except.ok.injEq] at h
    subst h
    exact ⟨hr, hw⟩
  · exact Except.noConfusion h
  · exact Except.noConfusion h
  · simp only [Except.ok.injEq] at h
    subst h
    exact ⟨hr, hw⟩
  · exact Except.noConfusion h
  · simp only [Except.ok.injEq] at h
    subst h
    exact ⟨hr, hw⟩
  · exact Except.noConfusion h
  · exact Except.noConfusion h
  · simp only [Except.ok.injEq] at h
    subst h
    exact ⟨hr, hw⟩
  · exact Except.noConfusion h
  · exact Except.noConfusion h
  · exact Except.noConfusion h
  · simp only [Except.ok.injEq] at h
    subst h
    exact ⟨hr, hw⟩
  · exact Except.noConfusion h
  · simp only [Except.ok.injEq] at h
    subst h
    exact ⟨hr, hw⟩
  · simp only [Except.ok.injEq] at h
    subst h
    exact ⟨hr, hw⟩

theorem parseStep_inv {c : Collab} {s : List Nat} {st : ParseState}
    {out : StepOut} (hinv : HashBoundSt c st)
    (h : parseStep c s st = .ok out) : StepHB c out := by
  simp only [parseStep] at h
  split at h
  · simp only [Except.ok.injEq] at h
    rw [← h]
    exact hinv
  · split at h
    · exact Except.noConfusion h
    · split at h
      · split at h
        · split at h
          · exact Except.noConfusion h
          · split at h
            · exact Except.noConfusion h
            · simp only [Except.ok.injEq] at h
              rw [← h]
              exact hinv
        · split at h
          · exact Except.noConfusion h
          · simp only [Except.ok.injEq] at h
            rw [← h]
            exact hinv
      · split at h
        · exact Except.noConfusion h
        · split at h
          · exact Except.noConfusion h
          · exact processRecord_inv hinv h

theorem parseLoop_inv {c : Collab} :
    ∀ (fuel : Nat) (s : List Nat) (st : ParseState)
      (p : PartiallySignedTransaction),
    HashBoundSt c st → parseLoop c fuel s st = .ok p → HashBound c p := by
  intro fuel
  induction fuel with
  | zero =>
    intro s st p hinv h
    simp only [parseLoop] at h
    split at h
    · simp only [Except.ok.injEq] at h
      exact h ▸ hinv
    · exact Except.noConfusion h
  | succ fuel ih =>
    intro s st p hinv h
    simp only [parseLoop] at h
    cases hs : parseStep c s st with
    | error e =>
      rw [hs] at h
      exact Except.noConfusion h
    | ok out =>
      have hout := parseStep_inv hinv hs
      rw [hs] at h
      cases out with
      | done q =>
        simp only [Except.ok.injEq] at h
        exact h ▸ hout
      | more s2 st2 =>
        exact ih s2 st2 p hout h

theorem unserialize_hash_bound (c : Collab) (s : List Nat)
    (p : PartiallySignedTransaction) (h : unserializePSBT c s = .ok p) :
    HashBound c p := by
  simp only [unserializePSBT] at h
  split at h
  · exact Except.noConfusion h
  · split at h
    · exact Except.noConfusion h
    · split at h
      · exact Except.noConfusion h
      · refine parseLoop_inv _ _ initState p ?_ h
        constructor
        · intro e he
          cases he
        · intro e he
          cases he

end PSBT

namespace PSBT

theorem readBytes_exact : ∀ (l rest : List Nat),
    readBytes l.length (l ++ rest) = some (l, rest) := by
  intro l
  induction l with
  | nil => intro rest; rfl
  | cons b bs ih =>
    intro rest
    show (readBytes bs.length (bs ++ rest)).map (fun p => (b :: p.1, p.2)) = _
    rw [ih rest]
    rfl

theorem readLE_leBytes : ∀ (w n : Nat) (rest : List Nat), n < 256 ^ w →
    readLE w (leBytes w n ++ rest) = some (n, rest) := by
  intro w
  induction w with
  | zero =>
    intro n rest h
    have hn : n = 0 := by simpa using h
    subst hn
    rfl
  | succ w ih =>
    intro n rest h
    have hdiv : n / 256 < 256 ^ w := by
      rw [Nat.div_lt_iff_lt_mul (by norm_num : 0 < 256)]
      calc n < 256 ^ (w + 1) := h
        _ = 256 ^ w * 256 := by rw [pow_succ]
    show (readLE w (leBytes w (n / 256) ++ rest)).map
      (fun p => (n % 256 + 256 * p.1, p.2)) = some (n, rest)
    rw [ih (n / 256) rest hdiv]
    show some (n % 256 + 256 * (n / 256), rest) = some (n, rest)
    rw [Nat.mod_add_div]

theorem readCompactSize_small {b : Nat} (hb : b < 253) (s : List Nat) :
    readCompactSize (b :: s) = .ok (b, s) := by
  simp only [readCompactSize]
  rw [if_pos hb]

theorem readCompactSize_write (n : Nat) (h : n < 18446744073709551616)
    (rest : List Nat) :
    readCompactSize (writeCompactSize n ++ rest) = .ok (n, rest) := by
  by_cases h1 : n < 253
  · rw [writeCompactSize, if_pos h1]
    exact readCompactSize_small h1 rest
  · by_cases h2 : n ≤ 65535
    · rw [writeCompactSize, if_neg h1, if_pos h2]
      show readCompactSize (253 :: (leBytes 2 n ++ rest)) = .ok (n, rest)
      simp only [readCompactSize]
      rw [if_neg (by norm_num : ¬(253 : Nat) < 253)]
      rw [if_pos trivial]
      rw [readLE_leBytes 2 n rest (lt_of_le_of_lt h2 (by norm_num : (65535:Nat) < 256 ^ 2))]
      show (if n < 253 then (Except.error PSBTError.nonCanonicalCompactSize :
        Except PSBTError (Nat × List Nat)) else Except.ok (n, rest)) = Except.ok (n, rest)
      rw [if_neg h1]
    · by_cases h3 : n ≤ 4294967295
      · rw [writeCompactSize, if_neg h1, if_neg h2, if_pos h3]
        show readCompactSize (254 :: (leBytes 4 n ++ rest)) = .ok (n, rest)
        simp only [readCompactSize]
        rw [if_neg (by norm_num : ¬(254 : Nat) < 253)]
        rw [if_neg (by norm_num : ¬(254 : Nat) = 253)]
        rw [if_pos trivial]
        rw [readLE_leBytes 4 n rest
          (lt_of_le_of_lt h3 (by norm_num : (4294967295:Nat) < 256 ^ 4))]
        show (if n < 65536 then (Except.error PSBTError.nonCanonicalCompactSize :
          Except PSBTError (Nat × List Nat)) else Except.ok (n, rest)) = Except.ok (n, rest)
        rw [if_neg (by omega)]
      · rw [writeCompactSize, if_neg h1, if_neg h2, if_neg h3]
        show readCompactSize (255 :: (leBytes 8 n ++ rest)) = .ok (n, rest)
        simp only [readCompactSize]
        rw [if_neg (by norm_num : ¬(255 : Nat) < 253)]
        rw [if_neg (by norm_num : ¬(255 : Nat) = 253)]
        rw [if_neg (by norm_num : ¬(255 : Nat) = 254)]
        rw [readLE_leBytes 8 n rest
          (lt_of_lt_of_le h (le_of_eq (by norm_num : (18446744073709551616:Nat) = 256 ^ 8)))]
        show (if n < 4294967296 then (Except.error PSBTError.nonCanonicalCompactSize :
          Except PSBTError (Nat × List Nat)) else Except.ok (n, rest)) = Except.ok (n, rest)
        rw [if_neg (by omega)]

theorem redeem_mismatch_fails (c : Collab) (fuel : Nat) (st : ParseState)
    (h20 sb rest : List Nat) (hg : st.in_globals = true) (hlen : h20.length = 20)
    (hsb : sb.length < 18446744073709551616) (hne : c.hash160 sb ≠ h20) :
    parseLoop c (fuel + 1)
      (21 :: 1 :: (h20 ++ (writeCompactSize sb.length ++ (sb ++ rest)))) st =
      .error .hashMismatch := by
  have hkey : ((1 :: h20) : List Nat).length = 21 := by simp [hlen]
  have hread : readBytes 21 ((1 :: h20) ++ (writeCompactSize sb.length ++ (sb ++ rest))) =
      some (1 :: h20, writeCompactSize sb.length ++ (sb ++ rest)) := by
    rw [← hkey]
    exact readBytes_exact (1 :: h20) _
  have hstep : parseStep c
      (21 :: 1 :: (h20 ++ (writeCompactSize sb.length ++ (sb ++ rest)))) st =
      .error .hashMismatch := by
    simp only [parseStep, readCompactSize_small (by norm_num : (21:Nat) < 253)]
    rw [if_neg (by norm_num : ¬(21 : Nat) = 0)]
    show (match readBytes 21 ((1 :: h20) ++ (writeCompactSize sb.length ++ (sb ++ rest))) with
      | none => (.error .unexpectedEof : Except PSBTError StepOut)
      | some (key, s2) =>
        match readCompactSize s2 with
        | .error e => .error e
        | .ok (value_len, s3) => processRecord c st key value_len s3) = .error .hashMismatch
    rw [hread]
    show (match readCompactSize (writeCompactSize sb.length ++ (sb ++ rest)) with
      | .error e => (.error e : Except PSBTError StepOut)
      | .ok (value_len, s3) => processRecord c st (1 :: h20) value_len s3) = .error .hashMismatch
    rw [readCompactSize_write sb.length hsb (sb ++ rest)]
    show processRecord c st (1 :: h20) sb.length (sb ++ rest) = .error .hashMismatch
    simp only [processRecord, List.headD_cons]
    rw [if_neg (by norm_num : ¬(1 : Nat) = 0)]
    rw [if_pos trivial]
    rw [hg]
    rw [if_pos rfl]
    rw [if_neg (by simp [hlen] : ¬((1 :: h20) : List Nat).length ≠ 21)]
    rw [show readBytes sb.length (sb ++ rest) = some (sb, rest) from readBytes_exact sb rest]
    show (if c.hash160 sb ≠ (h20 : List Nat) then (.error .hashMismatch : Except PSBTError StepOut)
      else _) = .error .hashMismatch
    rw [if_pos hne]
  show (match parseStep c
      (21 :: 1 :: (h20 ++ (writeCompactSize sb.length ++ (sb ++ rest)))) st with
    | .error e => (.error e : Except PSBTError PartiallySignedTransaction)
    | .ok (.done p) => .ok p
    | .ok (.more s1 st1) => parseLoop c fuel s1 st1) = .error .hashMismatch
  rw [hstep]

theorem witness_mismatch_fails (c : Collab) (fuel : Nat) (st : ParseState)
    (h32 sb rest : List Nat) (hg : st.in_globals = true) (hlen : h32.length = 32)
    (hsb : sb.length < 18446744073709551616) (hne : c.sha256 sb ≠ h32) :
    parseLoop c (fuel + 1)
      (33 :: 2 :: (h32 ++ (writeCompactSize sb.length ++ (sb ++ rest)))) st =
      .error .hashMismatch := by
  have hkey : ((2 :: h32) : List Nat).length = 33 := by simp [hlen]
  have hread : readBytes 33 ((2 :: h32) ++ (writeCompactSize sb.length ++ (sb ++ rest))) =
      some (2 :: h32, writeCompactSize sb.length ++ (sb ++ rest)) := by
    rw [← hkey]
    exact readBytes_exact (2 :: h32) _
  have hstep : parseStep c
      (33 :: 2 :: (h32 ++ (writeCompactSize sb.length ++ (sb ++ rest)))) st =
      .error .hashMismatch := by
    simp only [parseStep, readCompactSize_small (by norm_num : (33:Nat) < 253)]
    rw [if_neg (by norm_num : ¬(33 : Nat) = 0)]
    show (match readBytes 33 ((2 :: h32) ++ (writeCompactSize sb.length ++ (sb ++ rest))) with
      | none => (.error .unexpectedEof : Except PSBTError StepOut)
      | some (key, s2) =>
        match readCompactSize s2 with
        | .error e => .error e
        | .ok (value_len, s3) => processRecord c st key value_len s3) = .error .hashMismatch
    rw [hread]
    show (match readCompactSize (writeCompactSize sb.length ++ (sb ++ rest)) with
      | .error e => (.error e : Except PSBTError StepOut)
      | .ok (value_len, s3) => processRecord c st (2 :: h32) value_len s3) = .error .hashMismatch
    rw [readCompactSize_write sb.length hsb (sb ++ rest)]
    show processRecord c st (2 :: h32) sb.length (sb ++ rest) = .error .hashMismatch
    simp only [processRecord, List.headD_cons]
    rw [if_neg (by norm_num : ¬(2 : Nat) = 0)]
    rw [if_neg (by norm_num : ¬(2 : Nat) = 1)]
    rw [if_pos trivial]
    rw [hg]
    rw [if_pos rfl]
    rw [if_neg (by simp [hlen] : ¬((2 :: h32) : List Nat).length ≠ 33)]
    rw [show readBytes sb.length (sb ++ rest) = some (sb, rest) from readBytes_exact sb rest]
    show (if c.sha256 sb ≠ (h32 : List Nat) then (.error .hashMismatch : Except PSBTError StepOut)
      else _) = .error .hashMismatch
    rw [if_pos hne]
  show (match parseStep c
      (33 :: 2 :: (h32 ++ (writeCompactSize sb.length ++ (sb ++ rest)))) st with
    | .error e => (.error e : Except PSBTError PartiallySignedTransaction)
    | .ok (.done p) => .ok p
    | .ok (.more s1 st1) => parseLoop c fuel s1 st1) = .error .hashMismatch
  rw [hstep]

end PSBT

namespace PSBT

theorem readLE_four (b0 b1 b2 b3 : Nat) (rest : List Nat) :
    readLE 4 (b0 :: b1 :: b2 :: b3 :: rest) =
      some (b0 + 256 * (b1 + 256 * (b2 + 256 * (b3 + 256 * 0))), rest) := rfl

theorem unserializePSBT_bad_magic (c : Collab) (b0 b1 b2 b3 : Nat) (rest : List Nat)
    (hne : b0 + 256 * (b1 + 256 * (b2 + 256 * (b3 + 256 * 0))) ≠ 1952609136) :
    unserializePSBT c (b0 :: b1 :: b2 :: b3 :: rest) = .error .invalidMagic := by
  show (if b0 + 256 * (b1 + 256 * (b2 + 256 * (b3 + 256 * 0))) ≠ 1952609136
      then (.error .invalidMagic : Except PSBTError PartiallySignedTransaction)
      else match rest with
        | [] => .error .unexpectedEof
        | _ :: s2 => parseLoop c (s2.length + 1) s2 initState) = .error .invalidMagic
  rw [if_pos hne]

theorem unserializePSBT_fifth_byte (c : Collab) (x : Nat) (rest : List Nat) :
    unserializePSBT c (112 :: 115 :: 98 :: 116 :: x :: rest) =
      parseLoop c (rest.length + 1) rest initState := by
  show (if (112 : Nat) + 256 * (115 + 256 * (98 + 256 * (116 + 256 * 0))) ≠ 1952609136
      then (.error .invalidMagic : Except PSBTError PartiallySignedTransaction)
      else parseLoop c (rest.length + 1) rest initState) =
    parseLoop c (rest.length + 1) rest initState
  rw [if_neg (by norm_num)]

/-- C1: the round-trip property fails on the program as written. The default
`PartiallySignedTransaction` satisfies every precondition of the claim (its
`inputs` vector and `tx.vin` are both empty, and its empty hash-bound maps
satisfy their invariants vacuously), and `Serialize` emits the minimal stream
`70 73 62 74 ff 00` for it; but `Unserialize` of that stream throws
`UnexpectedInputCount`, because the end-of-stream guard at sign.h line 270
fires exactly when `separators - 1 == num_ins`, i.e. when the input-section
count MATCHES the stated count. Round-trip therefore fails even on this
simplest well-formed PSBT. -/
theorem claim_C1_roundtrip_fails_on_default :
    serializePSBT collab0 PartiallySignedTransaction.null =
      some [112, 115, 98, 116, 255, 0] ∧
    unserializePSBT collab0 [112, 115, 98, 116, 255, 0] =
      .error .unexpectedInputCount := by
  constructor
  · decide
  · decide

/-- C3: hash binding. (a)/(b) After every successful deserialization, every
`redeem_scripts` entry `(h, s)` satisfies `HASH160(s) = h` and every
`witness_scripts` entry satisfies `SHA256(s) = h`. (c) A global 0x01 record
whose value's recomputed HASH160 differs from the 20-byte hash carried in the
key makes the read loop fail with `HashMismatch`; (d) likewise a global 0x02
record with a wrong SHA256 against the 32-byte key hash. -/
theorem claim_C3_hash_binding (c : Collab) (s : List Nat)
    (p : PartiallySignedTransaction) (h : unserializePSBT c s = .ok p) :
    (∀ e ∈ p.redeem_scripts, c.hash160 e.2 = e.1) ∧
    (∀ e ∈ p.witness_scripts, c.sha256 e.2 = e.1) ∧
    (∀ (fuel : Nat) (st : ParseState) (h20 sb rest : List Nat),
      st.in_globals = true → h20.length = 20 →
      sb.length < 18446744073709551616 → c.hash160 sb ≠ h20 →
      parseLoop c (fuel + 1)
        (21 :: 1 :: (h20 ++ (writeCompactSize sb.length ++ (sb ++ rest)))) st =
        .error .hashMismatch) ∧
    (∀ (fuel : Nat) (st : ParseState) (h32 sb rest : List Nat),
      st.in_globals = true → h32.length = 32 →
      sb.length < 18446744073709551616 → c.sha256 sb ≠ h32 →
      parseLoop c (fuel + 1)
        (33 :: 2 :: (h32 ++ (writeCompactSize sb.length ++ (sb ++ rest)))) st =
        .error .hashMismatch) := by
  refine ⟨(unserialize_hash_bound c s p h).1, (unserialize_hash_bound c s p h).2,
    ?_, ?_⟩
  · intro fuel st h20 sb rest hg hlen hsb hne
    exact redeem_mismatch_fails c fuel st h20 sb rest hg hlen hsb hne
  · intro fuel st h32 sb rest hg hlen hsb hne
    exact witness_mismatch_fails c fuel st h32 sb rest hg hlen hsb hne

theorem claim_C3_witness :
    unserializePSBT collab0
      ([112,115,98,116,255,21,1] ++ List.replicate 20 88 ++ [1,81]) =
      .ok { PartiallySignedTransaction.null with
            redeem_scripts := [(List.replicate 20 88, [81])] } ∧
    (∀ e ∈ ({ PartiallySignedTransaction.null with
              redeem_scripts := [(List.replicate 20 88, [81])] }
        : PartiallySignedTransaction).redeem_scripts,
      collab0.hash160 e.2 = e.1) ∧
    parseLoop collab0 1
      (21 :: 1 :: (List.replicate 20 99 ++ (writeCompactSize 1 ++ ([81] ++ [])))) initState =
      .error .hashMismatch := by
  refine ⟨by decide, ?_, ?_⟩
  · exact (claim_C3_hash_binding collab0
      ([112,115,98,116,255,21,1] ++ List.replicate 20 88 ++ [1,81])
      { PartiallySignedTransaction.null with
        redeem_scripts := [(List.replicate 20 88, [81])] } (by decide)).1
  · exact (claim_C3_hash_binding collab0
      ([112,115,98,116,255,21,1] ++ List.replicate 20 88 ++ [1,81])
      { PartiallySignedTransaction.null with
        redeem_scripts := [(List.replicate 20 88, [81])] } (by decide)).2.2.1
      0 initState (List.replicate 20 99) [81] [] rfl (by decide) (by decide) (by decide)

end PSBT

namespace PSBT

/-- C5: the end-of-stream input-count check is inverted in the code. The
guard at sign.h line 270 throws precisely when `separators - 1 == num_ins`,
so a stream whose globals state `num_ins = 1` and which carries exactly one
per-input section fails with `UnexpectedInputCount` (first conjunct: counts
agree, yet deserialization fails), while the same stream with `num_ins = 2`
deserializes successfully with one input section recorded against a stated
count of two (second conjunct: counts differ, yet deserialization succeeds).
Both directions of the claimed behaviour are therefore violated. -/
theorem claim_C5_input_count_check_inverted :
    unserializePSBT collab0
      [112,115,98,116,255,1,4,0,1,0,1,4,0,0,0,0,0,0,0,0,0,0] =
      .error .unexpectedInputCount ∧
    (unserializePSBT collab0
      [112,115,98,116,255,1,4,0,2,0,1,4,0,0,0,0,0,0,0,0,0,0]).map
      (fun p => (p.inputs.length, p.num_ins)) = .ok (1, 2) := by
  constructor
  · decide
  · decide

/-- C6: the index-policy check does not implement the stated policy. A
stream whose single per-input section is unindexed — a uniformly-unindexed
PSBT, which the claim says must be accepted — is rejected with
`IndexPolicyViolation`, because the separator guard at sign.h line 257
throws whenever the transaction-wide flag and the current input's flag are
both unset (first conjunct). Conversely a stream mixing an indexed input
with an unindexed one — which the claim says must be rejected — parses
successfully, because the transaction-wide `use_in_index` flag set by the
first input masks the check for every later input (second conjunct). -/
theorem claim_C6_index_policy_check_divergent :
    unserializePSBT collab0 [112,115,98,116,255,0,0] =
      .error .indexPolicyViolation ∧
    (unserializePSBT collab0
      [112,115,98,116,255,0,1,4,0,0,0,0,0,0,0,0,0,0,0]).map
      (fun p => p.inputs.map (fun i => i.use_in_index)) = .ok [true, false] := by
  constructor
  · decide
  · decide

/-- C7 counterexample: a stream whose fifth byte is 0x00 (not 0xFF) parses
successfully — `Unserialize` reads the byte after the magic into `magic_sep`
and never inspects it — refuting the second half of the claim. -/
theorem claim_C7_counterexample :
    (unserializePSBT collab0 [112,115,98,116,0,1,4,0,1,0]).map
      (fun p => p.num_ins) = .ok 1 := by decide

/-- C7 amended: the magic half of the claim holds — any stream whose first
four bytes (each a byte value) are not `70 73 62 74` fails with
`InvalidMagic` — and the correct statement about the fifth byte is that it
is read and discarded: deserialization does not depend on its value at
all. -/
theorem claim_C7_magic_checked_fifth_byte_ignored (c : Collab)
    (b0 b1 b2 b3 : Nat) (rest : List Nat)
    (hb0 : b0 < 256) (hb1 : b1 < 256) (hb2 : b2 < 256) (hb3 : b3 < 256)
    (hne : ¬(b0 = 112 ∧ b1 = 115 ∧ b2 = 98 ∧ b3 = 116)) :
    unserializePSBT c (b0 :: b1 :: b2 :: b3 :: rest) = .error .invalidMagic ∧
    ∀ (x y : Nat) (s : List Nat),
      unserializePSBT c (112 :: 115 :: 98 :: 116 :: x :: s) =
        unserializePSBT c (112 :: 115 :: 98 :: 116 :: y :: s) := by
  constructor
  · exact unserializePSBT_bad_magic c b0 b1 b2 b3 rest (by omega)
  · intro x y s
    rw [unserializePSBT_fifth_byte, unserializePSBT_fifth_byte]

theorem claim_C7_witness :
    unserializePSBT collab0 [1, 115, 98, 116] = .error .invalidMagic ∧
    unserializePSBT collab0 [112, 115, 98, 116, 7, 0] =
      unserializePSBT collab0 [112, 115, 98, 116, 255, 0] := by
  constructor
  · exact (claim_C7_magic_checked_fifth_byte_ignored collab0 1 115 98 116 []
      (by decide) (by decide) (by decide) (by decide) (by decide)).1
  · exact (claim_C7_magic_checked_fifth_byte_ignored collab0 1 115 98 116 []
      (by decide) (by decide) (by decide) (by decide) (by decide)).2 7 255 [0]

end PSBT
